import Mathlib

/-!
Verification development for the `svg-unjunk` SVG minimizer
(`src/page/unjunk.ts`).  The TypeScript source is shallowly embedded:
pure helpers become Lean functions, the DOM tree becomes an inductive
type, the candidate generator becomes a function producing a list of
edit descriptors, and the minimization driver becomes a fuel-bounded
recursion parametrized by the external pieces (the DOM parser and the
rendering-equivalence oracle) that live outside the repository.
-/

namespace SvgUnjunk

/-! ### Characters and byte lengths -/

/-- The characters matched by the JavaScript `\s` class that can occur in
the markup handled here (ASCII whitespace). -/
def isWsChar (c : Char) : Bool :=
  c = ' ' ∨ c = '\t' ∨ c = '\n' ∨ c = '\r' ∨ c = '\x0b' ∨ c = '\x0c'

/-- Characters allowed in an attribute name by the scanner's class
`[^\s<>&'"]` in `getAttrs`. -/
def isAttrNameChar (c : Char) : Bool :=
  ¬ (isWsChar c ∨ c = '<' ∨ c = '>' ∨ c = '&' ∨ c = '\'' ∨ c = '"')

/-- UTF-8 byte length of a character list. -/
def charsByteLen (l : List Char) : Nat :=
  (l.map Char.utf8Size).sum

/-- UTF-8 byte length of a string (the "byte length" of the spec). -/
def byteLen (s : String) : Nat :=
  charsByteLen s.data

/-! ### `PhysAttr` and the tolerant attribute scanner `getAttrs`

`getAttrs` scans the original input text (not the tree) for the root
opening tag's attributes with the sticky regular expression
`/\s+([^\s<>&'"]+)\s*=\s*("|')[^]*?\2/igy`, starting right after the
first occurrence of `<svg`.  Offsets are modelled as character indices.
-/

structure PhysAttr where
  name : String
  raw : String
  start : Nat
  stop : Nat
  deriving DecidableEq, Repr

/-- Index of the first occurrence of `<svg` (`svgCode.indexOf('<svg')`). -/
def findMarker : List Char → Option Nat
  | [] => none
  | c :: rest =>
    if (c :: rest).take 4 = ['<', 's', 'v', 'g'] then some 0
    else (findMarker rest).map (· + 1)

/-- Match the `\s*=\s*("|')[^]*?\2` part of the attribute regex at the
head of `cs`; returns the consumed characters and the remainder.  The
lazy body `[^]*?\2` takes the shortest run up to the first matching
quote character. -/
def matchQuoted (cs : List Char) : Option (List Char × List Char) :=
  let ws1 := cs.takeWhile isWsChar
  let r1 := cs.dropWhile isWsChar
  match r1 with
  | '=' :: r2 =>
    let ws2 := r2.takeWhile isWsChar
    let r3 := r2.dropWhile isWsChar
    match r3 with
    | q :: r4 =>
      if q = '"' ∨ q = '\'' then
        let body := r4.takeWhile (fun c => ¬ c = q)
        match r4.dropWhile (fun c => ¬ c = q) with
        | q2 :: r5 => some (ws1 ++ '=' :: (ws2 ++ q :: (body ++ [q2])), r5)
        | [] => none
      else none
    | [] => none
  | _ => none

/-- Backtracking over the greedy name class `[^\s<>&'"]+`: the regex
engine first tries the longest name run and gives characters back from
its right end until the `\s*=\s*("|')…` tail matches.  The first
argument is the remaining name candidate, reversed. -/
def tryNameRev : List Char → List Char → Option (List Char × List Char × List Char)
  | [], _ => none
  | c :: revNp, rest =>
    match matchQuoted rest with
    | some (consumed, r) => some ((c :: revNp).reverse, consumed, r)
    | none => tryNameRev revNp (c :: rest)

/-- Match one attribute (`\s+name\s*=\s*("|')…\2`) at the head of `cs`.
Returns the raw consumed text, the attribute name, and the remainder. -/
def matchAttr (cs : List Char) : Option (List Char × String × List Char) :=
  let ws := cs.takeWhile isWsChar
  let r1 := cs.dropWhile isWsChar
  if ws.isEmpty then none
  else
    let np := r1.takeWhile isAttrNameChar
    let r2 := r1.dropWhile isAttrNameChar
    match tryNameRev np.reverse r2 with
    | none => none
    | some (nm, consumed, rest) =>
      some (ws ++ (nm ++ consumed), String.mk nm, rest)

/-- Repeatedly apply the sticky attribute regex; matches are contiguous
(each one starts at the previous `lastIndex`) and scanning stops at the
first failure.  `fuel` bounds the recursion; `getAttrs` supplies enough
fuel for the whole string. -/
def getAttrsAux : Nat → List Char → Nat → List PhysAttr
  | 0, _, _ => []
  | fuel + 1, cs, pos =>
    match matchAttr cs with
    | none => []
    | some (raw, nm, rest) =>
      { name := nm, raw := String.mk raw, start := pos, stop := pos + raw.length } ::
        getAttrsAux fuel rest (pos + raw.length)

/-- `getAttrs` of the source: scan the root `<svg` opening tag of the
serialized text for its physical attributes. -/
def getAttrs (svgCode : String) : List PhysAttr :=
  match findMarker svgCode.data with
  | none => []
  | some i => getAttrsAux svgCode.data.length (svgCode.data.drop (i + 4)) (i + 4)

/-! ### `fixAttrOrder` -/

/-- Last index at which an attribute named `nm` occurs, starting the
count at `i` (models the last-write-wins updates of the JavaScript
`Map` built by `fixAttrOrder`). -/
def lastIdxAux (nm : String) : List PhysAttr → Nat → Option Nat
  | [], _ => none
  | a :: t, i =>
    match lastIdxAux nm t (i + 1) with
    | some j => some j
    | none => if a.name = nm then some i else none

def lastIdxOf (nm : String) (l : List PhysAttr) : Option Nat :=
  lastIdxAux nm l 0

/-- The sort key `attrOrder.get(name)` of `fixAttrOrder`: the map is
filled with each new attribute's index, then overwritten with
`newAttrs.length + i` for each original attribute. -/
def attrOrderKey (newAttrs origAttrs : List PhysAttr) (nm : String) : Nat :=
  match lastIdxOf nm origAttrs with
  | some i => newAttrs.length + i
  | none => (lastIdxOf nm newAttrs).getD 0

/-- `newAttrs.sort((a, b) => attrOrder.get(a.name) - attrOrder.get(b.name))`:
a stable ascending sort by the numeric key.  `insertionSort` is stable,
matching the JavaScript `Array.prototype.sort` contract. -/
def reorderAttrs (newAttrs origAttrs : List PhysAttr) : List PhysAttr :=
  List.insertionSort
    (fun a b => attrOrderKey newAttrs origAttrs a.name ≤ attrOrderKey newAttrs origAttrs b.name)
    newAttrs

/-- Concatenation of the raw texts of a list of physical attributes
(`newAttrs.map(a => a.raw).join('')`). -/
def attrsRawFlat (l : List PhysAttr) : List Char :=
  l.foldr (fun a acc => a.raw.data ++ acc) []

/-- `fixAttrOrder` of the source: splice the reordered attribute raw
fragments over the original attribute span of the root opening tag. -/
def fixAttrOrder (svgCode : String) (originalAttrs : List PhysAttr) : String :=
  let newAttrs := getAttrs svgCode
  match newAttrs with
  | [] => svgCode
  | a0 :: _ =>
    let sliceStart := a0.start
    let sliceEnd := (newAttrs.getLastD a0).stop
    String.mk
      (svgCode.data.take sliceStart ++
        attrsRawFlat (reorderAttrs newAttrs originalAttrs) ++
        svgCode.data.drop sliceEnd)

/-! ### Document model

The browser DOM (`DOMParser`, `XMLSerializer`, elements with live
`classList`/`style` views) is external to the repository.  Modelled from
the spec: a Document is a root Element plus a tree of
Element / Text / Comment / ProcessingInstruction nodes; an Element has a
qualified name, an ordered attribute mapping, ordered children, a class
set and an inline-style bag (both views over the `class`/`style`
attributes, iteration order = insertion order). -/

inductive XNode where
  | element (name : String) (ns : Option String) (attrs : List (String × String))
      (children : List XNode)
  | text (s : String)
  | comment (s : String)
  | instruction (target data : String)

structure XDoc where
  children : List XNode

def XNode.isElement : XNode → Bool
  | .element .. => true
  | _ => false

def XNode.childNodes : XNode → List XNode
  | .element _ _ _ cs => cs
  | _ => []

/-- `getAttribute`: value of the first (in a well-formed document, only)
attribute with the given name. -/
def getAttrVal : List (String × String) → String → Option String
  | [], _ => none
  | a :: t, nm => if a.1 = nm then some a.2 else getAttrVal t nm

/-- `hasAttribute`. -/
def hasAttr : List (String × String) → String → Bool
  | [], _ => false
  | a :: t, nm => a.1 = nm || hasAttr t nm

/-- `setAttribute`: overwrite in place if present (keeping the attribute
position), append otherwise. -/
def setAttrVal (attrs : List (String × String)) (nm v : String) : List (String × String) :=
  if hasAttr attrs nm then attrs.map (fun a => if a.1 = nm then (nm, v) else a)
  else attrs ++ [(nm, v)]

/-- `removeAttribute`. -/
def removeAttrVal (attrs : List (String × String)) (nm : String) : List (String × String) :=
  attrs.filter (fun a => ¬ a.1 = nm)

/-- Trim JavaScript whitespace from both ends of a character list. -/
def trimWsBoth (l : List Char) : List Char :=
  ((l.dropWhile isWsChar).reverse.dropWhile isWsChar).reverse

/-- `String.startsWith`, expressed on the character lists. -/
def strPrefix (p s : String) : Bool :=
  p.data.isPrefixOf s.data

/-- `String.split` on a single separator character. -/
def splitOnCharAux (sep : Char) : List Char → List Char → List String
  | [], acc => [String.mk acc.reverse]
  | c :: t, acc =>
    if c = sep then String.mk acc.reverse :: splitOnCharAux sep t []
    else splitOnCharAux sep t (c :: acc)

def splitOnChar (sep : Char) (s : String) : List String :=
  splitOnCharAux sep s.data []

/-- `Array.prototype.join(sep)`. -/
def joinSep (sep : String) : List String → String
  | [] => ""
  | [s] => s
  | s :: rest => s ++ sep ++ joinSep sep rest

/-- Split a `class` attribute value into tokens on whitespace
(modelled from the spec: `classList` iteration order = insertion order). -/
def wsTokensAux : List Char → List Char → List String
  | [], acc => if acc.isEmpty then [] else [String.mk acc.reverse]
  | c :: t, acc =>
    if isWsChar c then
      if acc.isEmpty then wsTokensAux t [] else String.mk acc.reverse :: wsTokensAux t []
    else wsTokensAux t (c :: acc)

def splitWsTokens (s : String) : List String :=
  wsTokensAux s.data []

def classTokens (attrs : List (String × String)) : List String :=
  splitWsTokens ((getAttrVal attrs "class").getD "")

/-- Inline style declarations parsed from the `style` attribute
(modelled from the spec: an ordered property bag). -/
def styleDecls (s : String) : List (String × String) :=
  (splitOnChar ';' s).filterMap (fun decl =>
    match splitOnChar ':' decl with
    | [] => none
    | [_] => none
    | nm :: rest =>
      let nmT := String.mk (trimWsBoth nm.data)
      let v := String.mk (trimWsBoth (joinSep ":" rest).data)
      if nmT.data.isEmpty ∨ v.data.isEmpty then none else some (nmT, v))

def stylesOfAttrs (attrs : List (String × String)) : List (String × String) :=
  styleDecls ((getAttrVal attrs "style").getD "")

def serializeStyles (l : List (String × String)) : String :=
  joinSep "; " (l.map (fun d => d.1 ++ ": " ++ d.2))

/-! ### Candidate ops -/

/-- The number a `CleaningOp` reports on success: a backtrack count, or
the `Infinity` restart sentinel used by gradient inlining. -/
inductive Backtrack where
  | fin (n : Nat)
  | restart
  deriving DecidableEq, Repr

/-- A path of child indices from the Document down to a node. -/
abbrev Path := List Nat

/-- Candidate edit descriptors.  Each constructor corresponds to one
`yield`ed closure of `cleaningOps`/`inlineGradient`; the captured DOM
node references become paths. -/
inductive Op where
  | deleteAt (p : Path)
  | rewriteHref (p : Path)
  | removeAttr (p : Path) (name : String)
  | removeClass (p : Path) (name : String)
  | removeStyle (p : Path) (name : String)
  | inlineGrad (p : Path) (ref color opacity : String)
  | unwrap (p : Path)
  deriving DecidableEq, Repr

/-- The `backtrack` field each op returns. -/
def btOf : Op → Backtrack
  | .inlineGrad _ _ _ _ => .restart
  | .unwrap _ => .fin 1
  | _ => .fin 0

/-- The `forceLossless` field each op returns
(`attrName.startsWith('stroke-')` / `styleProp.startsWith('stroke-')`). -/
def strictOf : Op → Bool
  | .removeAttr _ nm => strPrefix "stroke-" nm
  | .removeStyle _ nm => strPrefix "stroke-" nm
  | _ => false

/-! ### Candidate generator (`sortAttrs`, `inlineGradient`, `cleaningOps`) -/

def doNotRemoveAttrs : List String :=
  ["xmlns", "viewBox",
   "width", "height",
   "r", "rx", "ry", "cx", "cy",
   "x", "y", "x1", "x2", "y1", "y2",
   "d",
   "offset", "stop-color",
   "filterUnits"]

def unwrapElements : List String := ["g", "svg"]

/-- The test `RE_XMLNS_ATTR = /^xmlns(?:|$)/`: the first alternative of
`(?:|$)` is the empty string, so the regex accepts any name that starts
with `xmlns`. -/
def matchesXmlnsRe (n : String) : Bool :=
  strPrefix "xmlns" n

/-- The body of `sortAttrs`: iterate `i` downward over the original
indices; a matching name is pushed to the end and spliced out. -/
def sortAttrsAux : Nat → List String → List String
  | 0, arr => arr
  | i + 1, arr =>
    let arr' :=
      match arr.get? i with
      | some nm => if matchesXmlnsRe nm then arr.eraseIdx i ++ [nm] else arr
      | none => arr
    sortAttrsAux i arr'

/-- `sortAttrs`: move `xmlns`-matching attribute names to the end. -/
def sortAttrs (attrNames : List String) : List String :=
  sortAttrsAux attrNames.length attrNames

/-- `x || 'd'` for a JavaScript string-or-null value: `null` and the
empty string are falsy. -/
def orDefault (v : Option String) (d : String) : String :=
  match v with
  | none => d
  | some s => if s.data.isEmpty then d else s

mutual

/-- One step of `grad.querySelector('stop')`: attributes of the first
element named `stop` in this subtree, in document (pre-)order. -/
def firstStopNode : XNode → Option (List (String × String))
  | .element nm _ attrs cs => if nm = "stop" then some attrs else firstStopAttrs cs
  | _ => none

def firstStopAttrs : List XNode → Option (List (String × String))
  | [] => none
  | n :: rest =>
    match firstStopNode n with
    | some a => some a
    | none => firstStopAttrs rest

end

/-- `inlineGradient`: yields nothing without an `id` attribute or
without a descendant `stop`; otherwise yields the single inlining op
carrying the reference `#id`, the first stop's color and opacity. -/
def inlineGradientOps (p : Path) (attrs : List (String × String)) (children : List XNode) :
    List Op :=
  if hasAttr attrs "id" then
    match firstStopAttrs children with
    | none => []
    | some stopAttrs =>
      [Op.inlineGrad p ("#" ++ (getAttrVal attrs "id").getD "")
        (orDefault (getAttrVal stopAttrs "stop-color") "black")
        (orDefault (getAttrVal stopAttrs "stop-opacity") "1")]
  else []

mutual

/-- The ops yielded for one Element child at path `p` under a parent
that `parentIsElement` describes, after the delete op: the recursive
walk of its own children, then the `xlink:href` rewrite, attribute
removals, class removals, style removals, gradient inlining, and
unwrap. -/
def cleaningOpsNode (parentIsElement : Bool) (p : Path) : XNode → List Op
  | .element nm _ attrs cs =>
    cleaningOpsChildren true p 0 cs ++
    (if hasAttr attrs "xlink:href" then [Op.rewriteHref p] else []) ++
    ((sortAttrs (attrs.map (·.1))).filter (fun n => ¬ doNotRemoveAttrs.contains n)).map
      (fun n => Op.removeAttr p n) ++
    (classTokens attrs).map (fun c => Op.removeClass p c) ++
    (stylesOfAttrs attrs).map (fun decl => Op.removeStyle p decl.1) ++
    (if nm = "linearGradient" ∨ nm = "radialGradient" then
       inlineGradientOps p attrs cs
     else []) ++
    (if unwrapElements.contains nm ∧ parentIsElement then [Op.unwrap p] else [])
  | _ => []

/-- `cleaningOps`: walk the children of a parent node (the Document when
`parentIsElement = false`, an Element otherwise), yielding per child the
delete op (unless the parent is the Document and the child is an
Element) followed by the per-element ops of `cleaningOpsNode`. -/
def cleaningOpsChildren (parentIsElement : Bool) (path : Path) :
    Nat → List XNode → List Op
  | _, [] => []
  | i, child :: rest =>
    (if parentIsElement ∨ ¬ child.isElement then [Op.deleteAt (path ++ [i])] else []) ++
    cleaningOpsNode parentIsElement (path ++ [i]) child ++
    cleaningOpsChildren parentIsElement path (i + 1) rest

end

def cleaningOps (d : XDoc) : List Op :=
  cleaningOpsChildren false [] 0 d.children

/-! ### Applying ops -/

def mapAttrsNode (f : List (String × String) → List (String × String)) : XNode → XNode
  | .element nm ns attrs cs => .element nm ns (f attrs) cs
  | n => n

/-- Apply an editing function at a path below a children list: at the
final index the node is replaced by a node list (used for
`child.remove()` with the empty list and for
`el.replaceWith(...el.childNodes)`); inner path steps descend into an
element's children. -/
def editChildren : Path → (XNode → List XNode) → List XNode → List XNode
  | [], _, ns => ns
  | [i], f, ns =>
    match ns.get? i with
    | some n => ns.take i ++ f n ++ ns.drop (i + 1)
    | none => ns
  | i :: j :: p, f, ns =>
    match ns.get? i with
    | some (.element nm nsv attrs cs) =>
      ns.take i ++ XNode.element nm nsv attrs (editChildren (j :: p) f cs) :: ns.drop (i + 1)
    | _ => ns

/-- Match the attribute value against `RE_URL_FUNCTION =
`/^\s*url\(\s*(.*?)\s*\)$/i`` and return the captured reference. -/
def urlFunctionArg (s : String) : Option String :=
  match s.data.dropWhile isWsChar with
  | u :: r :: l :: par :: rest =>
    if u.toLower = 'u' ∧ r.toLower = 'r' ∧ l.toLower = 'l' ∧ par = '(' then
      match rest.reverse with
      | ')' :: revCore => some (String.mk (trimWsBoth revCore.reverse))
      | _ => none
    else none
  | _ => none

/-- One element's step of the gradient-inlining rewrite: if it carries
the given `fill`/`stroke` attribute and the value references `ref`,
replace the value with the flat color and set the `*-opacity`
attribute. -/
def rewriteGradAttrs (attrName ref color opac : String)
    (attrs : List (String × String)) : List (String × String) :=
  if hasAttr attrs attrName then
    match urlFunctionArg ((getAttrVal attrs attrName).getD "") with
    | some arg =>
      if arg = ref then
        setAttrVal (setAttrVal attrs attrName color) (attrName ++ "-opacity") opac
      else attrs
    | none => attrs
  else attrs

mutual

def rewriteGradNode (attrName ref color opac : String) : XNode → XNode
  | .element nm ns attrs cs =>
    .element nm ns (rewriteGradAttrs attrName ref color opac attrs)
      (rewriteGradList attrName ref color opac cs)
  | n => n

def rewriteGradList (attrName ref color opac : String) : List XNode → List XNode
  | [] => []
  | n :: t => rewriteGradNode attrName ref color opac n :: rewriteGradList attrName ref color opac t

end

/-- The `xlink:href` rewrite op: every attribute is removed and re-set
in order; the legacy `xlink:href` attribute is re-set as plain `href`. -/
def rewriteHrefAttrs (attrs : List (String × String)) : List (String × String) :=
  attrs.foldl
    (fun acc a =>
      let acc' := removeAttrVal acc a.1
      if a.1 = "xlink:href" then setAttrVal acc' "href" a.2
      else setAttrVal acc' a.1 a.2)
    attrs

/-- Apply a candidate op to the document (the `op()` call). -/
def applyOp : Op → XDoc → XDoc
  | .deleteAt p, d => ⟨editChildren p (fun _ => []) d.children⟩
  | .unwrap p, d => ⟨editChildren p (fun n => n.childNodes) d.children⟩
  | .rewriteHref p, d => ⟨editChildren p (fun n => [mapAttrsNode rewriteHrefAttrs n]) d.children⟩
  | .removeAttr p nm, d =>
    ⟨editChildren p (fun n => [mapAttrsNode (fun a => removeAttrVal a nm) n]) d.children⟩
  | .removeClass p c, d =>
    ⟨editChildren p
      (fun n =>
        [mapAttrsNode
          (fun a => setAttrVal a "class"
            (String.intercalate " " ((classTokens a).filter (fun t => ¬ t = c)))) n])
      d.children⟩
  | .removeStyle p k, d =>
    ⟨editChildren p
      (fun n =>
        [mapAttrsNode
          (fun a => setAttrVal a "style"
            (serializeStyles ((stylesOfAttrs a).filter (fun t => ¬ t.1 = k)))) n])
      d.children⟩
  | .inlineGrad p ref color opac, d =>
    let d1 := rewriteGradList "fill" ref color opac d.children
    let d2 := rewriteGradList "stroke" ref color opac d1
    ⟨editChildren p (fun _ => []) d2⟩

/-! ### Serializer

Modelled from the spec: `serialize(Document) -> text` is a pure,
order-preserving round trip of the tree (the `XMLSerializer`). -/

def escAttrValue (v : String) : String :=
  String.mk (v.data.foldr
    (fun c acc =>
      if c = '&' then '&' :: 'a' :: 'm' :: 'p' :: ';' :: acc
      else if c = '<' then '&' :: 'l' :: 't' :: ';' :: acc
      else if c = '>' then '&' :: 'g' :: 't' :: ';' :: acc
      else if c = '"' then '&' :: 'q' :: 'u' :: 'o' :: 't' :: ';' :: acc
      else c :: acc)
    [])

def escTextValue (v : String) : String :=
  String.mk (v.data.foldr
    (fun c acc =>
      if c = '&' then '&' :: 'a' :: 'm' :: 'p' :: ';' :: acc
      else if c = '<' then '&' :: 'l' :: 't' :: ';' :: acc
      else if c = '>' then '&' :: 'g' :: 't' :: ';' :: acc
      else c :: acc)
    [])

def serializeAttrs (attrs : List (String × String)) : String :=
  String.join (attrs.map (fun a => " " ++ a.1 ++ "=\"" ++ escAttrValue a.2 ++ "\""))

mutual

def serializeNode : XNode → String
  | .element nm _ attrs cs =>
    match cs with
    | [] => "<" ++ nm ++ serializeAttrs attrs ++ "/>"
    | _ =>
      "<" ++ nm ++ serializeAttrs attrs ++ ">" ++ serializeList cs ++ "</" ++ nm ++ ">"
  | .text s => escTextValue s
  | .comment s => "<!--" ++ s ++ "-->"
  | .instruction t dta => "<?" ++ t ++ " " ++ dta ++ "?>"

def serializeList : List XNode → String
  | [] => ""
  | n :: t => serializeNode n ++ serializeList t

end

def serialize (d : XDoc) : String :=
  serializeList d.children

/-! ### `parse` -/

def svgNamespace : String := "http://www.w3.org/2000/svg"

/-- What the external `DOMParser` hands back for one input: the
document element's `nodeName` and `namespaceURI`, the text content of a
`parsererror > h3:first-child + div` element if one is present, and the
document tree.  The parser itself is outside the repository, so `parse`
below takes the raw parser as a parameter. -/
structure RawDoc where
  rootName : String
  rootNs : Option String
  errText : Option String
  doc : XDoc

/-- `errElement && errElement.textContent`: an error element with a
non-empty text. -/
def hasErrText (rd : RawDoc) : Bool :=
  match rd.errText with
  | some m => ¬ m.data.isEmpty
  | none => false

/-- Name and namespace of the first element in a children list (the
`documentElement` when applied to a Document's children). -/
def elemSigKids : List XNode → Option (String × Option String)
  | [] => none
  | .element nm ns _ _ :: _ => some (nm, ns)
  | _ :: rest => elemSigKids rest

/-- Name and namespace of the document's root element
(`documentElement`). -/
def rootSig (d : XDoc) : Option (String × Option String) :=
  elemSigKids d.children

/-- `doc.documentElement.setAttribute('xmlns', 'http://www.w3.org/2000/svg')`:
set the attribute on the first element child. -/
def setRootXmlnsKids : List XNode → List XNode
  | [] => []
  | n :: rest =>
    if n.isElement then
      mapAttrsNode (fun a => setAttrVal a "xmlns" svgNamespace) n :: rest
    else n :: setRootXmlnsKids rest

def setRootXmlns (d : XDoc) : XDoc :=
  ⟨setRootXmlnsKids d.children⟩

/-- `parse` of the source, over an abstract raw parser.  The fuel models
the self-recursion: the source re-parses after injecting the default
namespace declaration, and since the re-serialized document then carries
an explicit `xmlns` attribute the recursion can fire at most once, so
`parse` runs with fuel 1. -/
def parseAux (rawParse : String → RawDoc) : Nat → String → Except String XDoc
  | fuel, s =>
    let rd := rawParse s
    if rd.rootNs ≠ some svgNamespace then
      if hasErrText rd then
        .error ("SVG parse error: " ++ (rd.errText.getD ""))
      else if rd.rootNs ≠ none then
        .error "SVG parse error: The namespace should be \"http://www.w3.org/2000/svg\""
      else
        match fuel with
        | 0 => .error "SVG parse error: recovery failed"
        | fuel + 1 => parseAux rawParse fuel (serialize (setRootXmlns rd.doc))
    else if rd.rootName ≠ "svg" then
      .error "SVG parse error: The document element tag should be \"svg\" in lowercase"
    else
      .ok rd.doc

def parse (rawParse : String → RawDoc) (s : String) : Except String XDoc :=
  parseAux rawParse 1 s

/-! ### Minimization driver (`unjunk`) -/

/-- Outcome of one pass of the inner `for (opNumber…)` loop. -/
inductive ScanResult where
  | exhausted
  | accepted (newCode : String) (newSkip : Nat)
  | rejected (newSkip : Nat)
  deriving DecidableEq, Repr

/-- `Math.max(opNumber - backtrack, 0)`; truncated `Nat` subtraction
models the clamp at 0, and the `Infinity` sentinel forces 0. -/
def newSkipFor (opNumber : Nat) : Backtrack → Nat
  | .fin b => opNumber - b
  | .restart => 0

/-- The inner loop of `unjunk`: pull candidates in order, skip indices
below `skipOps`, set `skipOps = opNumber + 1` before applying, treat a
serialization-equal result as a no-op and keep scanning, otherwise ask
the oracle; acceptance and rejection both end the pass.  The oracle
`accept new old strict` abstracts `assertVisuallySame(new, old,
comparators, lossless || forceLossless)`. -/
def scanOps (accept : String → String → Bool → Bool) (lossless : Bool) :
    List Op → XDoc → String → Nat → Nat → ScanResult
  | [], _, _, _, _ => .exhausted
  | op :: rest, doc, svgCode, skipOps, opNumber =>
    if opNumber < skipOps then
      scanOps accept lossless rest doc svgCode skipOps (opNumber + 1)
    else
      let doc' := applyOp op doc
      let newSvgCode := serialize doc'
      if newSvgCode = svgCode then
        scanOps accept lossless rest doc' svgCode (opNumber + 1) (opNumber + 1)
      else if accept newSvgCode svgCode (lossless || strictOf op) then
        .accepted newSvgCode (newSkipFor opNumber (btOf op))
      else
        .rejected (opNumber + 1)

/-- The outer `for (let i = 0; i < 1000; i++)` loop: parse the committed
markup into a fresh Document, scan its candidates, and restart after an
accepted or rejected candidate.  `none` models the `ParseError`
propagating to the caller. -/
def unjunkIter (rawParse : String → RawDoc) (accept : String → String → Bool → Bool)
    (lossless : Bool) : Nat → String → Nat → Option String
  | 0, svgCode, _ => some svgCode
  | fuel + 1, svgCode, skipOps =>
    match parse rawParse svgCode with
    | .error _ => none
    | .ok doc =>
      match scanOps accept lossless (cleaningOps doc) doc svgCode skipOps 0 with
      | .exhausted => some svgCode
      | .accepted newCode newSkip => unjunkIter rawParse accept lossless fuel newCode newSkip
      | .rejected newSkip => unjunkIter rawParse accept lossless fuel svgCode newSkip

/-- `unjunk` (the `minimize` entry point): record the original physical
attributes, run the driver, then restore the attribute order. -/
def unjunk (rawParse : String → RawDoc) (accept : String → String → Bool → Bool)
    (lossless : Bool) (svgCode : String) : Option String :=
  let originalAttrs := getAttrs svgCode
  (unjunkIter rawParse accept lossless 1000 svgCode 0).map
    (fun out => fixAttrOrder out originalAttrs)

/-! ### `assertVisuallySame` over defect scores

The comparators rasterize in the browser and return real-valued defect
scores; a comparator is modelled by its score function `Nat → ℝ`
(argument: the `scale` passed to `compare`).  The sequential
throw-on-failure control flow of `assertVisuallySame` becomes a
disjunction per comparator: either the 1× score passes directly, or the
strict check and the 2×/1× ratio check are consulted. -/

def assertVisuallySame : List (Nat → ℝ) → Bool → Prop
  | [], _ => True
  | c :: rest, lossless =>
    (c 1 ≤ 0 ∧ assertVisuallySame rest lossless) ∨
    (¬ c 1 ≤ 0 ∧ lossless = false ∧ c 2 / c 1 < (2 : ℝ) ^ (1.5 : ℝ) ∧
      assertVisuallySame rest lossless)

/-! ### Node lookup by path -/

/-- The node a (non-empty) path points to below a children list. -/
def nodeAtKids : Path → List XNode → Option XNode
  | [], _ => none
  | [i], ns => ns.get? i
  | i :: j :: p, ns =>
    match ns.get? i with
    | some (.element _ _ _ cs) => nodeAtKids (j :: p) cs
    | _ => none

def nodeAt (d : XDoc) (p : Path) : Option XNode :=
  nodeAtKids p d.children

/-- The node a relative path points to, starting from a node (`[]` is
the node itself). -/
def nodeFrom (n : XNode) : Path → Option XNode
  | [] => some n
  | i :: p => nodeAtKids (i :: p) n.childNodes

/-- The generation conditions of a gradient-inlining op, relative to a
node: the relative path leads to a `linearGradient`/`radialGradient`
element carrying an `id`, with a first descendant `stop`, and the op's
data is derived from them. -/
def GradSpec (n : XNode) (sub : Path) (r c o : String) : Prop :=
  ∃ gnm gns gattrs gcs,
    nodeFrom n sub = some (XNode.element gnm gns gattrs gcs) ∧
    (gnm = "linearGradient" ∨ gnm = "radialGradient") ∧
    hasAttr gattrs "id" = true ∧
    ∃ stopAttrs, firstStopAttrs gcs = some stopAttrs ∧
      r = "#" ++ (getAttrVal gattrs "id").getD "" ∧
      c = orDefault (getAttrVal stopAttrs "stop-color") "black" ∧
      o = orDefault (getAttrVal stopAttrs "stop-opacity") "1"

/-- The path captured by an op (the edited node's location). -/
def Op.path : Op → Path
  | .deleteAt p => p
  | .rewriteHref p => p
  | .removeAttr p _ => p
  | .removeClass p _ => p
  | .removeStyle p _ => p
  | .inlineGrad p _ _ _ => p
  | .unwrap p => p

/-- The names carried by the attribute-removal ops targeted at path
`p`, in yield order. -/
def removeAttrNamesAt (p : Path) (ops : List Op) : List String :=
  ops.filterMap (fun op =>
    match op with
    | .removeAttr q nm => if q = p then some nm else none
    | _ => none)

/-- A namespace-declaration attribute name in the sense of the XML
namespaces specification: exactly `xmlns`, or a name with prefix
`xmlns:`.  (This is the reading of "namespace-declaration attribute" in
the specification text; the source's regex differs.) -/
def isNsDeclName (n : String) : Bool :=
  n = "xmlns" ∨ strPrefix "xmlns:" n

/-! ### Concrete fixtures

Concrete documents, markup strings, raw-parser tables and oracles used
to evaluate the model at specific inputs.  The raw-parser tables map
exactly the markup strings arising in the runs to the documents a real
XML parser would produce for them. -/

def fxNs : String := "http://www.w3.org/2000/svg"

def fxDocAQ : XDoc :=
  ⟨[.element "svg" (some fxNs) [("xmlns", fxNs)]
      [.element "a" (some fxNs) [("q", "1")] []]]⟩

def fxDocA : XDoc :=
  ⟨[.element "svg" (some fxNs) [("xmlns", fxNs)] [.element "a" (some fxNs) [] []]]⟩

def fxDocEmpty : XDoc :=
  ⟨[.element "svg" (some fxNs) [("xmlns", fxNs)] []]⟩

def fxStrAQ : String := "<svg xmlns=\"http://www.w3.org/2000/svg\"><a q=\"1\"/></svg>"

def fxStrA : String := "<svg xmlns=\"http://www.w3.org/2000/svg\"><a/></svg>"

def fxStrEmpty : String := "<svg xmlns=\"http://www.w3.org/2000/svg\"/>"

/-- Raw-parser table for the namespaced fixtures. -/
def fxRawParse : String → RawDoc := fun s =>
  if s = fxStrAQ then ⟨"svg", some fxNs, none, fxDocAQ⟩
  else if s = fxStrA then ⟨"svg", some fxNs, none, fxDocA⟩
  else if s = fxStrEmpty then ⟨"svg", some fxNs, none, fxDocEmpty⟩
  else ⟨"parsererror", none, some "syntax error", ⟨[]⟩⟩

/-- Oracle used for the idempotence counterexample: it accepts removing
the attribute `q` when compared against the original markup, and
accepts removing the child `<a/>` when compared against the
intermediate markup. -/
def fxAcceptC9 : String → String → Bool → Bool := fun a b _ =>
  (a = fxStrA && b = fxStrAQ) || (a = fxStrEmpty && b = fxStrA)

/-- Fixtures for the non-growth counterexample: the input lacks the
`xmlns` declaration, so `parse` recovers by injecting it, and the
serialized markup carries the injected declaration. -/
def fxStrNoNs : String := "<svg><a q=\"1\"/></svg>"

def fxDocNoNs : XDoc :=
  ⟨[.element "svg" none [] [.element "a" none [("q", "1")] []]]⟩

def fxStrRecovered : String :=
  "<svg xmlns=\"http://www.w3.org/2000/svg\"><a q=\"1\"/></svg>"

def fxDocRecovered : XDoc :=
  ⟨[.element "svg" (some fxNs) [("xmlns", fxNs)]
      [.element "a" none [("q", "1")] []]]⟩

def fxRawParseNoNs : String → RawDoc := fun s =>
  if s = fxStrNoNs then ⟨"svg", none, none, fxDocNoNs⟩
  else if s = fxStrRecovered then ⟨"svg", some fxNs, none, fxDocRecovered⟩
  else if s = fxStrA then ⟨"svg", some fxNs, none, fxDocA⟩
  else if s = fxStrEmpty then ⟨"svg", some fxNs, none, fxDocEmpty⟩
  else ⟨"parsererror", none, some "syntax error", ⟨[]⟩⟩

/-- The all-accepting oracle. -/
def fxAcceptAll : String → String → Bool → Bool := fun _ _ _ => true

/-- The all-rejecting oracle. -/
def fxAcceptNone : String → String → Bool → Bool := fun _ _ _ => false

/-- A document with a single-stop gradient referenced by a shape. -/
def fxDocGrad : XDoc :=
  ⟨[.element "svg" (some fxNs) [("xmlns", fxNs)]
      [.element "linearGradient" (some fxNs) [("id", "g")]
        [.element "stop" (some fxNs) [("offset", "0")] []],
       .element "rect" (some fxNs) [("fill", "url(#g)")] []]]⟩

/-! ## Theorems -/

/-! ### Attribute primitives -/

theorem getAttrVal_append (l1 l2 : List (String × String)) (nm : String) :
    getAttrVal (l1 ++ l2) nm =
      match getAttrVal l1 nm with
      | some v => some v
      | none => getAttrVal l2 nm := by
  induction l1 with
  | nil => simp [getAttrVal]
  | cons a t ih =>
    by_cases ha : a.1 = nm
    · simp [getAttrVal, ha]
    · simp [getAttrVal, ha, ih]

theorem getAttrVal_none_of_not_hasAttr {attrs : List (String × String)} {nm : String}
    (h : ¬ hasAttr attrs nm = true) : getAttrVal attrs nm = none := by
  induction attrs with
  | nil => rfl
  | cons a t ih =>
    by_cases ha : a.1 = nm
    · exact absurd (by simp [hasAttr, ha]) h
    · have ht : ¬ hasAttr t nm = true := by
        intro hc
        exact h (by simp [hasAttr, hc])
      simp [getAttrVal, ha, ih ht]

theorem getAttrVal_set_self (attrs : List (String × String)) (nm v : String) :
    getAttrVal (setAttrVal attrs nm v) nm = some v := by
  unfold setAttrVal
  by_cases h : hasAttr attrs nm
  · simp only [h, if_true]
    induction attrs with
    | nil => simp [hasAttr] at h
    | cons a t ih =>
      by_cases ha : a.1 = nm
      · simp [getAttrVal, ha]
      · simp only [hasAttr, ha, decide_eq_true_eq, Bool.false_or] at h
        simp only [List.map_cons, if_neg ha]
        simpa [getAttrVal, ha] using ih h
  · rw [if_neg h, getAttrVal_append, getAttrVal_none_of_not_hasAttr h]
    simp [getAttrVal]

theorem getAttrVal_set_other (attrs : List (String × String)) (nm nm' v : String)
    (h : ¬ nm' = nm) :
    getAttrVal (setAttrVal attrs nm v) nm' = getAttrVal attrs nm' := by
  have hnm : ¬ nm = nm' := fun hc => h hc.symm
  unfold setAttrVal
  by_cases hh : hasAttr attrs nm
  · simp only [hh, if_true]
    clear hh
    induction attrs with
    | nil => simp
    | cons a t ih =>
      by_cases ha : a.1 = nm
      · have ha' : ¬ a.1 = nm' := by rw [ha]; exact hnm
        simp [getAttrVal, ha, ha', hnm, ih]
      · by_cases ha2 : a.1 = nm'
        · simp [getAttrVal, ha, ha2, h]
        · simp [getAttrVal, ha, ha2, ih]
  · rw [if_neg hh, getAttrVal_append]
    cases hval : getAttrVal attrs nm' with
    | none => simp [getAttrVal, hnm]
    | some w => simp

theorem hasAttr_of_getAttrVal {attrs : List (String × String)} {nm v : String}
    (h : getAttrVal attrs nm = some v) : hasAttr attrs nm = true := by
  induction attrs with
  | nil => simp [getAttrVal] at h
  | cons a t ih =>
    by_cases ha : a.1 = nm
    · simp [hasAttr, ha]
    · simp only [getAttrVal, if_neg ha] at h
      simp [hasAttr, ha, ih h]

/-- An attribute name is never equal to itself with `-opacity` appended. -/
theorem ne_append_opacity (s : String) : ¬ (s ++ "-opacity") = s := by
  intro h
  have h2 : (s ++ "-opacity").length = s.length := by rw [h]
  rw [String.length_append] at h2
  have h8 : ("-opacity" : String).length = 8 := rfl
  omega

/-! ### C10: gradient-inlining defaults -/

/-- C10.  The gradient-inlining op carries the first stop's
`stop-color` defaulted to `"black"` and its `stop-opacity` defaulted to
`"1"`, each independently of the other: a stop lacking `stop-color`
yields the color `"black"` whatever its `stop-opacity` says, and a stop
lacking `stop-opacity` yields the opacity `"1"` whatever its
`stop-color` says; and applying the rewrite to any element whose
`fill`/`stroke` references the gradient writes exactly the op's color
and opacity strings into the attribute and its `*-opacity`
companion. -/
theorem c10_gradient_defaults (p : Path) (attrs stopAttrs : List (String × String))
    (children : List XNode)
    (hid : hasAttr attrs "id" = true)
    (hstop : firstStopAttrs children = some stopAttrs) :
    inlineGradientOps p attrs children =
      [Op.inlineGrad p ("#" ++ (getAttrVal attrs "id").getD "")
        (orDefault (getAttrVal stopAttrs "stop-color") "black")
        (orDefault (getAttrVal stopAttrs "stop-opacity") "1")] ∧
    (getAttrVal stopAttrs "stop-color" = none →
      orDefault (getAttrVal stopAttrs "stop-color") "black" = "black") ∧
    (getAttrVal stopAttrs "stop-opacity" = none →
      orDefault (getAttrVal stopAttrs "stop-opacity") "1" = "1") ∧
    (∀ (color opacity attrName ref v : String) (eattrs : List (String × String)),
      getAttrVal eattrs attrName = some v → urlFunctionArg v = some ref →
      getAttrVal (rewriteGradAttrs attrName ref color opacity eattrs) attrName =
        some color ∧
      getAttrVal (rewriteGradAttrs attrName ref color opacity eattrs)
        (attrName ++ "-opacity") = some opacity) := by
  refine ⟨?_, ?_, ?_, ?_⟩
  · simp [inlineGradientOps, hid, hstop]
  · intro h
    rw [h]
    rfl
  · intro h
    rw [h]
    rfl
  · intro color opacity attrName ref v eattrs hv hurl
    have hhas := hasAttr_of_getAttrVal hv
    unfold rewriteGradAttrs
    simp only [hhas, if_true, hv, Option.getD_some, hurl]
    constructor
    · rw [getAttrVal_set_other _ _ _ _ (fun hc => ne_append_opacity attrName hc.symm)]
      exact getAttrVal_set_self _ _ _
    · exact getAttrVal_set_self _ _ _

theorem c10_gradient_defaults_witness :
    inlineGradientOps [0, 0] [("id", "g")]
      [XNode.element "stop" none [("stop-color", "red")] []] =
      [Op.inlineGrad [0, 0] "#g" "red" "1"] ∧
    inlineGradientOps [0, 0] [("id", "g")]
      [XNode.element "stop" none [("stop-opacity", "0.5")] []] =
      [Op.inlineGrad [0, 0] "#g" "black" "0.5"] ∧
    getAttrVal (rewriteGradAttrs "fill" "#g" "red" "1" [("fill", "url(#g)")]) "fill" =
      some "red" ∧
    getAttrVal (rewriteGradAttrs "fill" "#g" "red" "1" [("fill", "url(#g)")])
      "fill-opacity" = some "1" := by
  have h1 := c10_gradient_defaults [0, 0] [("id", "g")] [("stop-color", "red")]
    [XNode.element "stop" none [("stop-color", "red")] []] (by decide) (by decide)
  have h2 := c10_gradient_defaults [0, 0] [("id", "g")] [("stop-opacity", "0.5")]
    [XNode.element "stop" none [("stop-opacity", "0.5")] []] (by decide) (by decide)
  refine ⟨h1.1.trans (by decide), h2.1.trans (by decide), ?_, ?_⟩
  · exact (h1.2.2.2 "red" "1" "fill" "#g" "url(#g)" [("fill", "url(#g)")]
      (by decide) (by decide)).1
  · exact (h1.2.2.2 "red" "1" "fill" "#g" "url(#g)" [("fill", "url(#g)")]
      (by decide) (by decide)).2

/-! ### C4: driver skip accounting -/

theorem scanOps_first (accept : String → String → Bool → Bool) (lossless : Bool) :
    ∀ (ops : List Op) (doc : XDoc) (svg : String) (idx k : Nat) (op : Op),
    ops.get? k = some op →
    ¬ serialize (applyOp op doc) = svg →
    scanOps accept lossless ops doc svg (idx + k) idx =
      (if accept (serialize (applyOp op doc)) svg (lossless || strictOf op) then
        ScanResult.accepted (serialize (applyOp op doc)) (newSkipFor (idx + k) (btOf op))
      else ScanResult.rejected (idx + k + 1)) := by
  intro ops
  induction ops with
  | nil =>
    intro doc svg idx k op h hch
    simp at h
  | cons op0 rest ih =>
    intro doc svg idx k op hget hch
    cases k with
    | zero =>
      have hop : op = op0 := by simpa using hget.symm
      subst hop
      simp only [Nat.add_zero]
      rw [scanOps]
      simp only [Nat.lt_irrefl, if_false, if_neg hch]
    | succ k2 =>
      have hget2 : rest.get? k2 = some op := by simpa using hget
      have hlt : idx < idx + (k2 + 1) := by omega
      rw [scanOps]
      simp only [hlt, if_true]
      have heq : idx + (k2 + 1) = (idx + 1) + k2 := by omega
      rw [heq]
      exact ih doc svg (idx + 1) k2 op hget2 hch

/-- C4.  At the first candidate index `≥ skip`, the inner loop ends
with `skip = max(index − backtrackDepth, 0)` on acceptance (the restart
sentinel forcing 0, as gradient inlining reports) and with
`skip = index + 1` on rejection; `skip` had been set to `index + 1`
before the op was applied, which is the value surviving rejection. -/
theorem c4_skip_updates (accept : String → String → Bool → Bool) (lossless : Bool)
    (ops : List Op) (doc : XDoc) (svg : String) (skip : Nat) (op : Op)
    (hop : ops.get? skip = some op)
    (hchange : ¬ serialize (applyOp op doc) = svg) :
    (accept (serialize (applyOp op doc)) svg (lossless || strictOf op) = true →
      scanOps accept lossless ops doc svg skip 0 =
        ScanResult.accepted (serialize (applyOp op doc)) (newSkipFor skip (btOf op))) ∧
    (accept (serialize (applyOp op doc)) svg (lossless || strictOf op) = false →
      scanOps accept lossless ops doc svg skip 0 = ScanResult.rejected (skip + 1)) ∧
    (∀ (n b : Nat), ((newSkipFor n (Backtrack.fin b) : Nat) : Int) =
      max ((n : Int) - (b : Int)) 0) ∧
    (∀ n : Nat, newSkipFor n Backtrack.restart = 0) ∧
    (∀ (q : Path) (r c o : String), btOf (Op.inlineGrad q r c o) = Backtrack.restart) := by
  have h0 := scanOps_first accept lossless ops doc svg 0 skip op hop hchange
  simp only [Nat.zero_add] at h0
  refine ⟨?_, ?_, ?_, ?_, ?_⟩
  · intro ha
    rw [h0, if_pos ha]
  · intro ha
    rw [h0, ha]
    simp
  · intro n b
    simp only [newSkipFor]
    omega
  · intro n
    rfl
  · intro q r c o
    rfl

theorem c4_skip_updates_witness :
    scanOps fxAcceptNone false (cleaningOps fxDocAQ) fxDocAQ fxStrAQ 1 0 =
      ScanResult.rejected 2 := by
  have h := c4_skip_updates fxAcceptNone false (cleaningOps fxDocAQ) fxDocAQ fxStrAQ 1
    (Op.removeAttr [0, 0] "q") (by decide) (by decide)
  exact h.2.1 rfl

/-! ### C1, C2, C8, C9: counterexamples -/

/-- C1 counterexample.  With a final output carrying a new attribute
`a` followed by an attribute `b` that also occurred in the original
input, the restoration pass keeps the order `[a, b]`: the
original-named attribute is placed *after* the new one, not before it
as the claim states — `attrOrder` maps original names to
`newAttrs.length + i`, which sorts them last. -/
theorem c1_counterexample :
    ¬ (reorderAttrs
        [⟨"a", " a=\"1\"", 4, 10⟩, ⟨"b", " b=\"2\"", 10, 16⟩]
        [⟨"b", " b=\"9\"", 4, 10⟩]).Pairwise
      (fun x y =>
        y.name ∈ ([⟨"b", " b=\"9\"", 4, 10⟩] : List PhysAttr).map (fun a => a.name) →
        x.name ∈ ([⟨"b", " b=\"9\"", 4, 10⟩] : List PhysAttr).map (fun a => a.name)) := by
  decide

/-- C2 counterexample.  The input `<svg><a q="1"/></svg>` parses
successfully (via the namespace recovery), yet with an oracle that
accepts the first candidate the output is
`<svg xmlns="http://www.w3.org/2000/svg"/>`, which is strictly longer
than the input: serialization reflects the injected `xmlns`
declaration. -/
theorem c2_counterexample :
    parse fxRawParseNoNs fxStrNoNs = Except.ok fxDocRecovered ∧
    unjunk fxRawParseNoNs fxAcceptAll false fxStrNoNs = some fxStrEmpty ∧
    byteLen fxStrNoNs < byteLen fxStrEmpty :=
  ⟨rfl, by decide, by decide⟩

/-- C8 counterexample.  `xmlnsfoo` is not a namespace declaration, yet
its removal op is offered after `fill`'s although it precedes `fill` in
the element's attribute order: `RE_XMLNS_ATTR = /^xmlns(?:|$)/` tests
only for the prefix `xmlns`. -/
theorem c8_counterexample :
    cleaningOpsNode false [0]
        (XNode.element "a" none [("xmlnsfoo", "1"), ("fill", "red")] []) =
      [Op.removeAttr [0] "fill", Op.removeAttr [0] "xmlnsfoo"] ∧
    isNsDeclName "xmlnsfoo" = false ∧
    isNsDeclName "fill" = false ∧
    doNotRemoveAttrs.contains "xmlnsfoo" = false ∧
    doNotRemoveAttrs.contains "fill" = false := by
  decide

/-- C9 counterexample.  With one fixed oracle, minimizing
`<svg xmlns="…"><a q="1"/></svg>` converges to `<svg xmlns="…"><a/></svg>`
(the deletion of `<a/>` was rejected at generation 1 and never retried
because `skip` remained past it), but minimizing that output again
deletes `<a/>`: minimize is not idempotent. -/
theorem c9_counterexample :
    unjunk fxRawParse fxAcceptC9 false fxStrAQ = some fxStrA ∧
    unjunk fxRawParse fxAcceptC9 false fxStrA = some fxStrEmpty ∧
    ¬ fxStrEmpty = fxStrA :=
  ⟨by decide, by decide, by decide⟩

/-! ### `sortAttrs` characterization -/

theorem get?_append_length {α : Type} (pre : List α) (c : α) (rest : List α) :
    (pre ++ c :: rest).get? pre.length = some c := by
  induction pre with
  | nil => rfl
  | cons a t ih => simpa using ih

theorem eraseIdx_append_length {α : Type} (pre : List α) (c : α) (rest : List α) :
    (pre ++ c :: rest).eraseIdx pre.length = pre ++ rest := by
  induction pre with
  | nil => rfl
  | cons a t ih => simpa [List.eraseIdx] using ih

theorem sortAttrsAux_spec : ∀ (pre rest : List String),
    sortAttrsAux pre.length (pre ++ rest) =
      pre.filter (fun n => ¬ matchesXmlnsRe n) ++ rest ++
        (pre.filter matchesXmlnsRe).reverse := by
  intro pre
  induction pre using List.reverseRecOn with
  | nil => intro rest; simp [sortAttrsAux]
  | append_singleton pre c ih =>
    intro rest
    have hlen : (pre ++ [c]).length = pre.length + 1 := by simp
    rw [hlen, sortAttrsAux]
    have hget : ((pre ++ [c]) ++ rest).get? pre.length = some c := by
      rw [List.append_assoc]
      exact get?_append_length pre c rest
    rw [hget]
    dsimp only
    by_cases hx : matchesXmlnsRe c = true
    · rw [if_pos hx]
      have herase : ((pre ++ [c]) ++ rest).eraseIdx pre.length = pre ++ rest := by
        rw [List.append_assoc]
        exact eraseIdx_append_length pre c rest
      rw [herase, List.append_assoc, ih (rest ++ [c])]
      simp [List.filter_append, hx]
    · rw [if_neg hx]
      rw [show (pre ++ [c]) ++ rest = pre ++ ([c] ++ rest) by simp, ih ([c] ++ rest)]
      simp [List.filter_append, hx]

/-- `sortAttrs` keeps the non-`xmlns`-prefixed names in order and moves
the `xmlns`-prefixed names to the end, reversing their relative
order. -/
theorem sortAttrs_spec (l : List String) :
    sortAttrs l =
      l.filter (fun n => ¬ matchesXmlnsRe n) ++ (l.filter matchesXmlnsRe).reverse := by
  have := sortAttrsAux_spec l []
  simpa [sortAttrs] using this

/-! ### Paths of generated ops -/

theorem mem_inlineGradientOps {op : Op} {p : Path} {attrs : List (String × String)}
    {cs : List XNode} (h : op ∈ inlineGradientOps p attrs cs) :
    ∃ r c o, op = Op.inlineGrad p r c o ∧
      hasAttr attrs "id" = true ∧
      ∃ stopAttrs, firstStopAttrs cs = some stopAttrs ∧
        r = "#" ++ (getAttrVal attrs "id").getD "" ∧
        c = orDefault (getAttrVal stopAttrs "stop-color") "black" ∧
        o = orDefault (getAttrVal stopAttrs "stop-opacity") "1" := by
  unfold inlineGradientOps at h
  by_cases hid : hasAttr attrs "id" = true
  · rw [if_pos hid] at h
    cases hstop : firstStopAttrs cs with
    | none => rw [hstop] at h; simp at h
    | some stopAttrs =>
      rw [hstop] at h
      simp only [List.mem_singleton] at h
      exact ⟨_, _, _, h, hid, stopAttrs, rfl, rfl, rfl, rfl⟩
  · rw [if_neg hid] at h
    simp at h

theorem pathShape_case_elem (pie : Bool) (p : Path) (nm : String) (nsv : Option String)
    (attrs : List (String × String)) (cs : List XNode)
    (ih : ∀ op ∈ cleaningOpsChildren true p 0 cs,
      ∃ k q, Op.path op = p ++ (k :: q) ∧ 0 ≤ k) :
    ∀ op ∈ cleaningOpsNode pie p (XNode.element nm nsv attrs cs),
      ∃ q, Op.path op = p ++ q := by
  intro op hop
  rw [cleaningOpsNode] at hop
  simp only [List.mem_append] at hop
  rcases hop with ((((((h | h) | h) | h) | h) | h) | h)
  · obtain ⟨k, q, hq, _⟩ := ih op h
    exact ⟨k :: q, hq⟩
  · split at h
    · simp only [List.mem_singleton] at h
      subst h
      exact ⟨[], by simp [Op.path]⟩
    · simp at h
  · obtain ⟨nm2, _, hop⟩ := List.mem_map.mp h
    subst hop
    exact ⟨[], by simp [Op.path]⟩
  · obtain ⟨c, _, hop⟩ := List.mem_map.mp h
    subst hop
    exact ⟨[], by simp [Op.path]⟩
  · obtain ⟨decl, _, hop⟩ := List.mem_map.mp h
    subst hop
    exact ⟨[], by simp [Op.path]⟩
  · split at h
    · obtain ⟨r, c, o, hop, _⟩ := mem_inlineGradientOps h
      subst hop
      exact ⟨[], by simp [Op.path]⟩
    · simp at h
  · split at h
    · simp only [List.mem_singleton] at h
      subst h
      exact ⟨[], by simp [Op.path]⟩
    · simp at h

theorem pathShape_case_nonelem (t : XNode) (pie : Bool) (p : Path)
    (hne : ∀ (nm : String) (nsv : Option String) (attrs : List (String × String))
      (cs : List XNode), t = XNode.element nm nsv attrs cs → False) :
    ∀ op ∈ cleaningOpsNode pie p t, ∃ q, Op.path op = p ++ q := by
  intro op hop
  cases t with
  | element nm nsv attrs cs => exact absurd rfl (hne nm nsv attrs cs)
  | text s => simp [cleaningOpsNode] at hop
  | comment s => simp [cleaningOpsNode] at hop
  | instruction a b => simp [cleaningOpsNode] at hop

theorem pathShape_case_nil (pie : Bool) (path : Path) (i : Nat) :
    ∀ op ∈ cleaningOpsChildren pie path i [], ∃ k q, Op.path op = path ++ (k :: q) ∧ i ≤ k := by
  intro op hop
  rw [cleaningOpsChildren] at hop
  simp at hop

theorem pathShape_case_cons (pie : Bool) (path : Path) (i : Nat) (child : XNode)
    (rest : List XNode)
    (ih1 : ∀ op ∈ cleaningOpsNode pie (path ++ [i]) child,
      ∃ q, Op.path op = (path ++ [i]) ++ q)
    (ih2 : ∀ op ∈ cleaningOpsChildren pie path (i + 1) rest,
      ∃ k q, Op.path op = path ++ (k :: q) ∧ i + 1 ≤ k) :
    ∀ op ∈ cleaningOpsChildren pie path i (child :: rest),
      ∃ k q, Op.path op = path ++ (k :: q) ∧ i ≤ k := by
  intro op hop
  rw [cleaningOpsChildren] at hop
  simp only [List.mem_append] at hop
  rcases hop with ((h | h) | h)
  · split at h
    · simp only [List.mem_singleton] at h
      subst h
      exact ⟨i, [], by simp [Op.path], Nat.le_refl i⟩
    · simp at h
  · obtain ⟨q, hq⟩ := ih1 op h
    exact ⟨i, q, by simpa using hq, Nat.le_refl i⟩
  · obtain ⟨k, q, hq, hk⟩ := ih2 op h
    exact ⟨k, q, hq, by omega⟩

theorem cleaningOpsChildren_path (pie : Bool) (path : Path) (i : Nat) (ns : List XNode) :
    ∀ op ∈ cleaningOpsChildren pie path i ns,
      ∃ k q, Op.path op = path ++ (k :: q) ∧ i ≤ k :=
  cleaningOpsChildren.induct
    (fun pie p child => ∀ op ∈ cleaningOpsNode pie p child, ∃ q, Op.path op = p ++ q)
    (fun pie path i ns => ∀ op ∈ cleaningOpsChildren pie path i ns,
      ∃ k q, Op.path op = path ++ (k :: q) ∧ i ≤ k)
    (fun pie p nm nsv attrs cs ih => pathShape_case_elem pie p nm nsv attrs cs ih)
    pathShape_case_nonelem
    pathShape_case_nil
    pathShape_case_cons
    pie path i ns

theorem cleaningOpsNode_path (pie : Bool) (p : Path) (child : XNode) :
    ∀ op ∈ cleaningOpsNode pie p child, ∃ q, Op.path op = p ++ q :=
  cleaningOpsNode.induct
    (fun pie p child => ∀ op ∈ cleaningOpsNode pie p child, ∃ q, Op.path op = p ++ q)
    (fun pie path i ns => ∀ op ∈ cleaningOpsChildren pie path i ns,
      ∃ k q, Op.path op = path ++ (k :: q) ∧ i ≤ k)
    (fun pie p nm nsv attrs cs ih => pathShape_case_elem pie p nm nsv attrs cs ih)
    pathShape_case_nonelem
    pathShape_case_nil
    pathShape_case_cons
    pie p child

/-! ### C8: attribute-removal ops -/

theorem removeAttrNamesAt_append (p : Path) (l1 l2 : List Op) :
    removeAttrNamesAt p (l1 ++ l2) = removeAttrNamesAt p l1 ++ removeAttrNamesAt p l2 := by
  unfold removeAttrNamesAt
  exact List.filterMap_append l1 l2 _

theorem removeAttrNamesAt_eq_nil {p : Path} : ∀ {ops : List Op},
    (∀ op ∈ ops, ¬ Op.path op = p) → removeAttrNamesAt p ops = [] := by
  intro ops
  induction ops with
  | nil => intro _; rfl
  | cons op rest ih =>
    intro h
    have hop := h op (List.mem_cons_self op rest)
    have htail := ih (fun o ho => h o (List.mem_cons_of_mem _ ho))
    unfold removeAttrNamesAt at htail ⊢
    rw [List.filterMap_cons]
    cases op with
    | removeAttr q nm =>
      have hq : ¬ q = p := by simpa [Op.path] using hop
      simpa [hq] using htail
    | deleteAt q => exact htail
    | rewriteHref q => exact htail
    | removeClass q nm => exact htail
    | removeStyle q nm => exact htail
    | inlineGrad q a b c => exact htail
    | unwrap q => exact htail

theorem removeAttrNamesAt_of_no_removeAttr {p : Path} : ∀ {ops : List Op},
    (∀ (q : Path) (nm : String), ¬ Op.removeAttr q nm ∈ ops) →
    removeAttrNamesAt p ops = [] := by
  intro ops
  induction ops with
  | nil => intro _; rfl
  | cons op rest ih =>
    intro h
    have htail := ih (fun q nm hmem => h q nm (List.mem_cons_of_mem _ hmem))
    unfold removeAttrNamesAt at htail ⊢
    rw [List.filterMap_cons]
    cases op with
    | removeAttr q nm => exact absurd (List.mem_cons_self _ _) (h q nm)
    | deleteAt q => exact htail
    | rewriteHref q => exact htail
    | removeClass q nm => exact htail
    | removeStyle q nm => exact htail
    | inlineGrad q a b c => exact htail
    | unwrap q => exact htail

theorem removeAttrNamesAt_map_self (p : Path) (names : List String) :
    removeAttrNamesAt p (names.map (fun n => Op.removeAttr p n)) = names := by
  induction names with
  | nil => rfl
  | cons n t ih =>
    unfold removeAttrNamesAt at ih ⊢
    simpa [List.filterMap_cons] using ih

/-- C8 (amended).  The attribute-removal ops an element contributes
carry exactly its non-allow-listed attribute names: first those whose
name does not start with `xmlns`, in the attributes' current order,
then those starting with `xmlns`, in reverse of their current order. -/
theorem c8_amended (pie : Bool) (p : Path) (nm : String) (nsv : Option String)
    (attrs : List (String × String)) (cs : List XNode) :
    removeAttrNamesAt p (cleaningOpsNode pie p (XNode.element nm nsv attrs cs)) =
      ((attrs.map (fun a => a.1)).filter
        (fun n => ¬ doNotRemoveAttrs.contains n = true ∧ ¬ matchesXmlnsRe n = true)) ++
      (((attrs.map (fun a => a.1)).filter
        (fun n => ¬ doNotRemoveAttrs.contains n = true ∧ matchesXmlnsRe n = true)).reverse) := by
  rw [cleaningOpsNode]
  rw [removeAttrNamesAt_append, removeAttrNamesAt_append, removeAttrNamesAt_append,
    removeAttrNamesAt_append, removeAttrNamesAt_append, removeAttrNamesAt_append]
  have h1 : removeAttrNamesAt p (cleaningOpsChildren true p 0 cs) = [] := by
    apply removeAttrNamesAt_eq_nil
    intro op hop
    obtain ⟨k, q, hq, _⟩ := cleaningOpsChildren_path true p 0 cs op hop
    rw [hq]
    intro hc
    have hlen := congrArg List.length hc
    simp at hlen
  have h2 : removeAttrNamesAt p
      (if hasAttr attrs "xlink:href" = true then [Op.rewriteHref p] else []) = [] := by
    apply removeAttrNamesAt_of_no_removeAttr
    intro q nm2 hmem
    split at hmem
    · simp at hmem
    · simp at hmem
  have h4 : removeAttrNamesAt p
      ((classTokens attrs).map (fun c => Op.removeClass p c)) = [] := by
    apply removeAttrNamesAt_of_no_removeAttr
    intro q nm2 hmem
    obtain ⟨x, _, hx⟩ := List.mem_map.mp hmem
    exact Op.noConfusion hx
  have h5 : removeAttrNamesAt p
      ((stylesOfAttrs attrs).map (fun decl => Op.removeStyle p decl.1)) = [] := by
    apply removeAttrNamesAt_of_no_removeAttr
    intro q nm2 hmem
    obtain ⟨x, _, hx⟩ := List.mem_map.mp hmem
    exact Op.noConfusion hx
  have h6 : removeAttrNamesAt p
      (if nm = "linearGradient" ∨ nm = "radialGradient" then
        inlineGradientOps p attrs cs else []) = [] := by
    apply removeAttrNamesAt_of_no_removeAttr
    intro q nm2 hmem
    split at hmem
    · obtain ⟨r, c, o, hop, _⟩ := mem_inlineGradientOps hmem
      exact Op.noConfusion hop
    · simp at hmem
  have h7 : removeAttrNamesAt p
      (if unwrapElements.contains nm = true ∧ pie = true then [Op.unwrap p] else []) = [] := by
    apply removeAttrNamesAt_of_no_removeAttr
    intro q nm2 hmem
    split at hmem
    · simp at hmem
    · simp at hmem
  rw [h1, h2, h4, h5, h6, h7, removeAttrNamesAt_map_self]
  rw [sortAttrs_spec, List.filter_append, List.filter_reverse, List.filter_filter,
    List.filter_filter]
  simp only [List.nil_append, List.append_nil]
  apply congrArg₂
  · apply List.filter_congr
    intro x _
    simp
  · apply congrArg
    apply List.filter_congr
    intro x _
    simp

/-! ### C7: gradient inlining -/

theorem nodeAtKids_nil : ∀ (q : Path), nodeAtKids q ([] : List XNode) = none
  | [] => rfl
  | [_] => rfl
  | _ :: _ :: _ => rfl

theorem nodeAtKids_cons_of {k : Nat} {sub : Path} {ns : List XNode} {child n : XNode}
    (hg : ns.get? k = some child) (hf : nodeFrom child sub = some n) :
    nodeAtKids (k :: sub) ns = some n := by
  cases sub with
  | nil =>
    have hn : child = n := by simpa [nodeFrom] using hf
    subst hn
    simpa [nodeAtKids] using hg
  | cons j p =>
    cases child with
    | element nm nsv attrs cs =>
      show nodeAtKids (k :: j :: p) ns = some n
      rw [nodeAtKids, hg]
      simpa [nodeFrom, XNode.childNodes] using hf
    | text s =>
      have hf2 : nodeAtKids (j :: p) ([] : List XNode) = some n := hf
      rw [nodeAtKids_nil] at hf2
      exact absurd hf2 (by simp)
    | comment s =>
      have hf2 : nodeAtKids (j :: p) ([] : List XNode) = some n := hf
      rw [nodeAtKids_nil] at hf2
      exact absurd hf2 (by simp)
    | instruction a b =>
      have hf2 : nodeAtKids (j :: p) ([] : List XNode) = some n := hf
      rw [nodeAtKids_nil] at hf2
      exact absurd hf2 (by simp)

theorem gradShape_case_elem (pie : Bool) (p : Path) (nm : String) (nsv : Option String)
    (attrs : List (String × String)) (cs : List XNode)
    (ih : ∀ (q : Path) (r c o : String),
      Op.inlineGrad q r c o ∈ cleaningOpsChildren true p 0 cs →
      ∃ k child sub, cs.get? k = some child ∧ q = p ++ ((0 + k) :: sub) ∧
        GradSpec child sub r c o) :
    ∀ (q : Path) (r c o : String),
      Op.inlineGrad q r c o ∈ cleaningOpsNode pie p (XNode.element nm nsv attrs cs) →
      ∃ sub, q = p ++ sub ∧ GradSpec (XNode.element nm nsv attrs cs) sub r c o := by
  intro q r c o hop
  rw [cleaningOpsNode] at hop
  simp only [List.mem_append] at hop
  rcases hop with ((((((h | h) | h) | h) | h) | h) | h)
  · obtain ⟨k, child, sub, hget, hq, hspec⟩ := ih q r c o h
    refine ⟨(0 + k) :: sub, hq, ?_⟩
    obtain ⟨gnm, gns, gattrs, gcs, hfrom, hrest⟩ := hspec
    refine ⟨gnm, gns, gattrs, gcs, ?_, hrest⟩
    have : nodeAtKids ((0 + k) :: sub) cs = some (XNode.element gnm gns gattrs gcs) := by
      rw [Nat.zero_add]
      exact nodeAtKids_cons_of hget hfrom
    simpa [nodeFrom, XNode.childNodes] using this
  · split at h
    · simp at h
    · simp at h
  · obtain ⟨x, _, hx⟩ := List.mem_map.mp h
    exact Op.noConfusion hx
  · obtain ⟨x, _, hx⟩ := List.mem_map.mp h
    exact Op.noConfusion hx
  · obtain ⟨x, _, hx⟩ := List.mem_map.mp h
    exact Op.noConfusion hx
  · split at h
    · rename_i hgrad
      obtain ⟨r2, c2, o2, hop2, hid, stopAttrs, hstop, hr, hc, ho⟩ :=
        mem_inlineGradientOps h
      cases hop2
      exact ⟨[], by simp, nm, nsv, attrs, cs, rfl, hgrad, hid,
        stopAttrs, hstop, hr, hc, ho⟩
    · simp at h
  · split at h
    · simp at h
    · simp at h

theorem gradShape_case_nonelem (t : XNode) (pie : Bool) (p : Path)
    (hne : ∀ (nm : String) (nsv : Option String) (attrs : List (String × String))
      (cs : List XNode), t = XNode.element nm nsv attrs cs → False) :
    ∀ (q : Path) (r c o : String),
      Op.inlineGrad q r c o ∈ cleaningOpsNode pie p t →
      ∃ sub, q = p ++ sub ∧ GradSpec t sub r c o := by
  intro q r c o hop
  cases t with
  | element nm nsv attrs cs => exact absurd rfl (hne nm nsv attrs cs)
  | text s => simp [cleaningOpsNode] at hop
  | comment s => simp [cleaningOpsNode] at hop
  | instruction a b => simp [cleaningOpsNode] at hop

theorem gradShape_case_nil (pie : Bool) (path : Path) (i : Nat) :
    ∀ (q : Path) (r c o : String),
      Op.inlineGrad q r c o ∈ cleaningOpsChildren pie path i [] →
      ∃ k child sub, ([] : List XNode).get? k = some child ∧
        q = path ++ ((i + k) :: sub) ∧ GradSpec child sub r c o := by
  intro q r c o hop
  rw [cleaningOpsChildren] at hop
  simp at hop

theorem gradShape_case_cons (pie : Bool) (path : Path) (i : Nat) (child : XNode)
    (rest : List XNode)
    (ih1 : ∀ (q : Path) (r c o : String),
      Op.inlineGrad q r c o ∈ cleaningOpsNode pie (path ++ [i]) child →
      ∃ sub, q = (path ++ [i]) ++ sub ∧ GradSpec child sub r c o)
    (ih2 : ∀ (q : Path) (r c o : String),
      Op.inlineGrad q r c o ∈ cleaningOpsChildren pie path (i + 1) rest →
      ∃ k child2 sub, rest.get? k = some child2 ∧ q = path ++ ((i + 1 + k) :: sub) ∧
        GradSpec child2 sub r c o) :
    ∀ (q : Path) (r c o : String),
      Op.inlineGrad q r c o ∈ cleaningOpsChildren pie path i (child :: rest) →
      ∃ k child2 sub, (child :: rest).get? k = some child2 ∧
        q = path ++ ((i + k) :: sub) ∧ GradSpec child2 sub r c o := by
  intro q r c o hop
  rw [cleaningOpsChildren] at hop
  simp only [List.mem_append] at hop
  rcases hop with ((h | h) | h)
  · split at h
    · simp at h
    · simp at h
  · obtain ⟨sub, hq, hspec⟩ := ih1 q r c o h
    refine ⟨0, child, sub, rfl, ?_, hspec⟩
    rw [hq, Nat.add_zero]
    simp
  · obtain ⟨k, child2, sub, hget, hq, hspec⟩ := ih2 q r c o h
    refine ⟨k + 1, child2, sub, by simpa using hget, ?_, hspec⟩
    rw [hq]
    have : i + 1 + k = i + (k + 1) := by omega
    rw [this]

theorem cleaningOpsChildren_grad (pie : Bool) (path : Path) (i : Nat) (ns : List XNode) :
    ∀ (q : Path) (r c o : String),
      Op.inlineGrad q r c o ∈ cleaningOpsChildren pie path i ns →
      ∃ k child sub, ns.get? k = some child ∧ q = path ++ ((i + k) :: sub) ∧
        GradSpec child sub r c o :=
  cleaningOpsChildren.induct
    (fun pie p child => ∀ (q : Path) (r c o : String),
      Op.inlineGrad q r c o ∈ cleaningOpsNode pie p child →
      ∃ sub, q = p ++ sub ∧ GradSpec child sub r c o)
    (fun pie path i ns => ∀ (q : Path) (r c o : String),
      Op.inlineGrad q r c o ∈ cleaningOpsChildren pie path i ns →
      ∃ k child sub, ns.get? k = some child ∧ q = path ++ ((i + k) :: sub) ∧
        GradSpec child sub r c o)
    gradShape_case_elem
    gradShape_case_nonelem
    gradShape_case_nil
    gradShape_case_cons
    pie path i ns

/-- C7.  The gradient-inlining op is yielded only for a
`linearGradient`/`radialGradient` element that has an `id` attribute
and a first descendant `stop`, with the reference, flat color and
opacity derived from them; applying it rewrites each referencing
`fill`/`stroke` attribute to the flat color plus the `*-opacity`
companion, removes the node at the gradient's path, and the op reports
the restart sentinel. -/
theorem c7_gradient_op (d : XDoc) :
    (∀ (q : Path) (r c o : String),
      Op.inlineGrad q r c o ∈ cleaningOps d →
      ∃ gnm gns gattrs gcs,
        nodeAt d q = some (XNode.element gnm gns gattrs gcs) ∧
        (gnm = "linearGradient" ∨ gnm = "radialGradient") ∧
        hasAttr gattrs "id" = true ∧
        ∃ stopAttrs, firstStopAttrs gcs = some stopAttrs ∧
          r = "#" ++ (getAttrVal gattrs "id").getD "" ∧
          c = orDefault (getAttrVal stopAttrs "stop-color") "black" ∧
          o = orDefault (getAttrVal stopAttrs "stop-opacity") "1") ∧
    (∀ (q : Path) (r c o : String),
      applyOp (Op.inlineGrad q r c o) d =
        ⟨editChildren q (fun _ => [])
          (rewriteGradList "stroke" r c o (rewriteGradList "fill" r c o d.children))⟩) ∧
    (∀ (attrName r c o v : String) (eattrs : List (String × String)),
      getAttrVal eattrs attrName = some v → urlFunctionArg v = some r →
      getAttrVal (rewriteGradAttrs attrName r c o eattrs) attrName = some c ∧
      getAttrVal (rewriteGradAttrs attrName r c o eattrs) (attrName ++ "-opacity") = some o) ∧
    (∀ (i : Nat) (ns : List XNode) (n : XNode), ns.get? i = some n →
      editChildren [i] (fun _ => []) ns = ns.take i ++ ns.drop (i + 1)) ∧
    (∀ (q : Path) (r c o : String), btOf (Op.inlineGrad q r c o) = Backtrack.restart) := by
  refine ⟨?_, ?_, ?_, ?_, ?_⟩
  · intro q r c o hop
    obtain ⟨k, child, sub, hget, hq, hspec⟩ :=
      cleaningOpsChildren_grad false [] 0 d.children q r c o hop
    obtain ⟨gnm, gns, gattrs, gcs, hfrom, hcond, hid, hrest⟩ := hspec
    refine ⟨gnm, gns, gattrs, gcs, ?_, hcond, hid, hrest⟩
    rw [hq]
    simp only [List.nil_append, Nat.zero_add]
    exact nodeAtKids_cons_of hget hfrom
  · intro q r c o
    rfl
  · intro attrName r c o v eattrs hv hurl
    have hhas := hasAttr_of_getAttrVal hv
    unfold rewriteGradAttrs
    simp only [hhas, if_true, hv, Option.getD_some, hurl]
    refine ⟨?_, getAttrVal_set_self _ _ _⟩
    rw [getAttrVal_set_other _ _ _ _ (fun hc => ne_append_opacity attrName hc.symm)]
    exact getAttrVal_set_self _ _ _
  · intro i ns n hget
    rw [editChildren, hget]
    simp
  · intro q r c o
    rfl

theorem c7_gradient_op_witness :
    (∃ gnm gns gattrs gcs,
      nodeAt fxDocGrad [0, 0] = some (XNode.element gnm gns gattrs gcs) ∧
      (gnm = "linearGradient" ∨ gnm = "radialGradient") ∧
      hasAttr gattrs "id" = true ∧
      ∃ stopAttrs, firstStopAttrs gcs = some stopAttrs ∧
        "#g" = "#" ++ (getAttrVal gattrs "id").getD "" ∧
        "black" = orDefault (getAttrVal stopAttrs "stop-color") "black" ∧
        "1" = orDefault (getAttrVal stopAttrs "stop-opacity") "1") ∧
    btOf (Op.inlineGrad [0, 0] "#g" "black" "1") = Backtrack.restart := by
  have h := c7_gradient_op fxDocGrad
  exact ⟨h.1 [0, 0] "#g" "black" "1" (by decide), h.2.2.2.2 [0, 0] "#g" "black" "1"⟩

/-! ### C5: root preservation — supporting lemmas -/

theorem take_append_drop_of_get? {α : Type} :
    ∀ (ns : List α) (i : Nat) (n : α), ns.get? i = some n →
    ns.take i ++ n :: ns.drop (i + 1) = ns := by
  intro ns
  induction ns with
  | nil => intro i n h; simp at h
  | cons a t ih =>
    intro i n h
    cases i with
    | zero =>
      have : a = n := by simpa using h
      subst this
      simp
    | succ i2 =>
      have h2 : t.get? i2 = some n := by simpa using h
      simpa using ih i2 n h2

theorem elemSigKids_replace_elem :
    ∀ (ns : List XNode) (i : Nat) (nm : String) (nsv : Option String)
      (a a' : List (String × String)) (cs cs' : List XNode),
    ns.get? i = some (XNode.element nm nsv a cs) →
    elemSigKids (ns.take i ++ XNode.element nm nsv a' cs' :: ns.drop (i + 1)) =
      elemSigKids ns := by
  intro ns
  induction ns with
  | nil => intro i nm nsv a a' cs cs' h; simp at h
  | cons c0 t ih =>
    intro i nm nsv a a' cs cs' h
    cases i with
    | zero =>
      have : c0 = XNode.element nm nsv a cs := by simpa using h
      subst this
      simp [elemSigKids]
    | succ i2 =>
      have h2 : t.get? i2 = some (XNode.element nm nsv a cs) := by simpa using h
      cases c0 with
      | element n2 s2 a2 c2 => simp [elemSigKids]
      | text s => simpa [elemSigKids] using ih i2 nm nsv a a' cs cs' h2
      | comment s => simpa [elemSigKids] using ih i2 nm nsv a a' cs cs' h2
      | instruction x y => simpa [elemSigKids] using ih i2 nm nsv a a' cs cs' h2

theorem elemSigKids_remove_nonelem :
    ∀ (ns : List XNode) (i : Nat) (n : XNode), ns.get? i = some n →
    n.isElement = false →
    elemSigKids (ns.take i ++ ns.drop (i + 1)) = elemSigKids ns := by
  intro ns
  induction ns with
  | nil => intro i n h _; simp at h
  | cons c0 t ih =>
    intro i n h hne
    cases i with
    | zero =>
      have : c0 = n := by simpa using h
      subst this
      cases c0 with
      | element n2 s2 a2 c2 => simp [XNode.isElement] at hne
      | text s => simp [elemSigKids]
      | comment s => simp [elemSigKids]
      | instruction x y => simp [elemSigKids]
    | succ i2 =>
      have h2 : t.get? i2 = some n := by simpa using h
      cases c0 with
      | element n2 s2 a2 c2 => simp [elemSigKids]
      | text s => simpa [elemSigKids] using ih i2 n h2 hne
      | comment s => simpa [elemSigKids] using ih i2 n h2 hne
      | instruction x y => simpa [elemSigKids] using ih i2 n h2 hne

/-- Editing strictly below the top level does not change which element
is the document element, nor its name and namespace. -/
theorem elemSigKids_edit_deep (i j : Nat) (p : Path) (f : XNode → List XNode)
    (ns : List XNode) :
    elemSigKids (editChildren (i :: j :: p) f ns) = elemSigKids ns := by
  rw [editChildren]
  cases hget : ns.get? i with
  | none => rfl
  | some n =>
    cases n with
    | element nm nsv attrs cs =>
      exact elemSigKids_replace_elem ns i nm nsv attrs attrs cs _ hget
    | text s => rfl
    | comment s => rfl
    | instruction x y => rfl

theorem elemSigKids_edit_mapAttrs (p : Path)
    (g : List (String × String) → List (String × String)) (ns : List XNode) :
    elemSigKids (editChildren p (fun n => [mapAttrsNode g n]) ns) = elemSigKids ns := by
  cases p with
  | nil => rfl
  | cons i q =>
    cases q with
    | nil =>
      rw [editChildren]
      cases hget : ns.get? i with
      | none => rfl
      | some n =>
        cases n with
        | element nm nsv attrs cs =>
          simp only [mapAttrsNode, List.append_assoc, List.singleton_append]
          exact elemSigKids_replace_elem ns i nm nsv attrs (g attrs) cs cs hget
        | text s =>
          simp only [mapAttrsNode, List.append_assoc, List.singleton_append]
          rw [take_append_drop_of_get? ns i (XNode.text s) hget]
        | comment s =>
          simp only [mapAttrsNode, List.append_assoc, List.singleton_append]
          rw [take_append_drop_of_get? ns i (XNode.comment s) hget]
        | instruction x y =>
          simp only [mapAttrsNode, List.append_assoc, List.singleton_append]
          rw [take_append_drop_of_get? ns i (XNode.instruction x y) hget]
    | cons j r => exact elemSigKids_edit_deep i j r _ ns

theorem elemSigKids_rewriteGradList (a r c o : String) :
    ∀ ns : List XNode,
      elemSigKids (rewriteGradList a r c o ns) = elemSigKids ns := by
  intro ns
  induction ns with
  | nil => rfl
  | cons n t ih =>
    cases n with
    | element nm nsv attrs cs =>
      rw [rewriteGradList, rewriteGradNode]
      simp [elemSigKids]
    | text s =>
      rw [rewriteGradList, show rewriteGradNode a r c o (XNode.text s) = XNode.text s from rfl]
      simpa [elemSigKids] using ih
    | comment s =>
      rw [rewriteGradList,
        show rewriteGradNode a r c o (XNode.comment s) = XNode.comment s from rfl]
      simpa [elemSigKids] using ih
    | instruction x y =>
      rw [rewriteGradList,
        show rewriteGradNode a r c o (XNode.instruction x y) = XNode.instruction x y from rfl]
      simpa [elemSigKids] using ih

/-- The delete op is yielded for a child of the walked node whenever the
parent is an Element or the child is a non-Element. -/
theorem deleteOp_mem_children :
    ∀ (ns : List XNode) (pie : Bool) (path : Path) (i k : Nat) (child : XNode),
    ns.get? k = some child → (pie = true ∨ child.isElement = false) →
    Op.deleteAt (path ++ [i + k]) ∈ cleaningOpsChildren pie path i ns := by
  intro ns
  induction ns with
  | nil => intro pie path i k child h _; simp at h
  | cons c0 t ih =>
    intro pie path i k child hget hcond
    rw [cleaningOpsChildren]
    cases k with
    | zero =>
      have : c0 = child := by simpa using hget
      subst this
      have hcond2 : (pie = true ∨ ¬ c0.isElement = true) := by
        rcases hcond with h | h
        · exact Or.inl h
        · exact Or.inr (by simp [h])
      rw [if_pos hcond2]
      simp
    | succ k2 =>
      have h2 : t.get? k2 = some child := by simpa using hget
      have hmem := ih pie path (i + 1) k2 child h2 hcond
      have harith : i + 1 + k2 = i + (k2 + 1) := by omega
      rw [harith] at hmem
      simp [hmem]

theorem nodeAtKids_cons_succ (j : Nat) (sub : Path) (c : XNode) (t : List XNode) :
    nodeAtKids ((j + 1) :: sub) (c :: t) = nodeAtKids (j :: sub) t := by
  cases sub with
  | nil => rfl
  | cons s ss => rfl

/-! ### C5: shapes of delete and unwrap ops -/

theorem delShape_case_elem (pie : Bool) (p : Path) (nm : String) (nsv : Option String)
    (attrs : List (String × String)) (cs : List XNode)
    (ih : ∀ dp, Op.deleteAt dp ∈ cleaningOpsChildren true p 0 cs →
      (∃ k child, cs.get? k = some child ∧ dp = p ++ [0 + k] ∧
        (true = true ∨ child.isElement = false)) ∨
      (∃ k j sub, dp = p ++ ((0 + k) :: j :: sub))) :
    ∀ dp, Op.deleteAt dp ∈ cleaningOpsNode pie p (XNode.element nm nsv attrs cs) →
      ∃ k sub, dp = p ++ (k :: sub) := by
  intro dp hop
  rw [cleaningOpsNode] at hop
  simp only [List.mem_append] at hop
  rcases hop with ((((((h | h) | h) | h) | h) | h) | h)
  · rcases ih dp h with ⟨k, child, _, hdp, _⟩ | ⟨k, j, sub, hdp⟩
    · exact ⟨0 + k, [], hdp⟩
    · exact ⟨0 + k, j :: sub, hdp⟩
  · split at h
    · simp at h
    · simp at h
  · obtain ⟨x, _, hx⟩ := List.mem_map.mp h
    exact Op.noConfusion hx
  · obtain ⟨x, _, hx⟩ := List.mem_map.mp h
    exact Op.noConfusion hx
  · obtain ⟨x, _, hx⟩ := List.mem_map.mp h
    exact Op.noConfusion hx
  · split at h
    · obtain ⟨r, c, o, hop2, _⟩ := mem_inlineGradientOps h
      exact Op.noConfusion hop2
    · simp at h
  · split at h
    · simp at h
    · simp at h

theorem delShape_case_nonelem (t : XNode) (pie : Bool) (p : Path)
    (hne : ∀ (nm : String) (nsv : Option String) (attrs : List (String × String))
      (cs : List XNode), t = XNode.element nm nsv attrs cs → False) :
    ∀ dp, Op.deleteAt dp ∈ cleaningOpsNode pie p t → ∃ k sub, dp = p ++ (k :: sub) := by
  intro dp hop
  cases t with
  | element nm nsv attrs cs => exact absurd rfl (hne nm nsv attrs cs)
  | text s => simp [cleaningOpsNode] at hop
  | comment s => simp [cleaningOpsNode] at hop
  | instruction a b => simp [cleaningOpsNode] at hop

theorem delShape_case_nil (pie : Bool) (path : Path) (i : Nat) :
    ∀ dp, Op.deleteAt dp ∈ cleaningOpsChildren pie path i [] →
      (∃ k child, ([] : List XNode).get? k = some child ∧ dp = path ++ [i + k] ∧
        (pie = true ∨ child.isElement = false)) ∨
      (∃ k j sub, dp = path ++ ((i + k) :: j :: sub)) := by
  intro dp hop
  rw [cleaningOpsChildren] at hop
  simp at hop

theorem delShape_case_cons (pie : Bool) (path : Path) (i : Nat) (child : XNode)
    (rest : List XNode)
    (ih1 : ∀ dp, Op.deleteAt dp ∈ cleaningOpsNode pie (path ++ [i]) child →
      ∃ k sub, dp = (path ++ [i]) ++ (k :: sub))
    (ih2 : ∀ dp, Op.deleteAt dp ∈ cleaningOpsChildren pie path (i + 1) rest →
      (∃ k child2, rest.get? k = some child2 ∧ dp = path ++ [i + 1 + k] ∧
        (pie = true ∨ child2.isElement = false)) ∨
      (∃ k j sub, dp = path ++ ((i + 1 + k) :: j :: sub))) :
    ∀ dp, Op.deleteAt dp ∈ cleaningOpsChildren pie path i (child :: rest) →
      (∃ k child2, (child :: rest).get? k = some child2 ∧ dp = path ++ [i + k] ∧
        (pie = true ∨ child2.isElement = false)) ∨
      (∃ k j sub, dp = path ++ ((i + k) :: j :: sub)) := by
  intro dp hop
  rw [cleaningOpsChildren] at hop
  simp only [List.mem_append] at hop
  rcases hop with ((h | h) | h)
  · split at h
    · rename_i hc
      simp only [List.mem_singleton] at h
      cases h
      refine Or.inl ⟨0, child, rfl, by rw [Nat.add_zero], ?_⟩
      rcases hc with hc | hc
      · exact Or.inl hc
      · exact Or.inr (by simpa using hc)
    · simp at h
  · obtain ⟨k, sub, hdp⟩ := ih1 dp h
    refine Or.inr ⟨0, k, sub, ?_⟩
    rw [hdp, Nat.add_zero]
    simp
  · rcases ih2 dp h with ⟨k, child2, hget, hdp, hcond⟩ | ⟨k, j, sub, hdp⟩
    · refine Or.inl ⟨k + 1, child2, by simpa using hget, ?_, hcond⟩
      rw [hdp]
      have : i + 1 + k = i + (k + 1) := by omega
      rw [this]
    · refine Or.inr ⟨k + 1, j, sub, ?_⟩
      rw [hdp]
      have : i + 1 + k = i + (k + 1) := by omega
      rw [this]

theorem cleaningOpsChildren_del (pie : Bool) (path : Path) (i : Nat) (ns : List XNode) :
    ∀ dp, Op.deleteAt dp ∈ cleaningOpsChildren pie path i ns →
      (∃ k child, ns.get? k = some child ∧ dp = path ++ [i + k] ∧
        (pie = true ∨ child.isElement = false)) ∨
      (∃ k j sub, dp = path ++ ((i + k) :: j :: sub)) :=
  cleaningOpsChildren.induct
    (fun pie p child => ∀ dp, Op.deleteAt dp ∈ cleaningOpsNode pie p child →
      ∃ k sub, dp = p ++ (k :: sub))
    (fun pie path i ns => ∀ dp, Op.deleteAt dp ∈ cleaningOpsChildren pie path i ns →
      (∃ k child, ns.get? k = some child ∧ dp = path ++ [i + k] ∧
        (pie = true ∨ child.isElement = false)) ∨
      (∃ k j sub, dp = path ++ ((i + k) :: j :: sub)))
    delShape_case_elem
    delShape_case_nonelem
    delShape_case_nil
    delShape_case_cons
    pie path i ns

theorem unwrapShape_case_elem (pie : Bool) (p : Path) (nm : String) (nsv : Option String)
    (attrs : List (String × String)) (cs : List XNode)
    (ih : ∀ up, Op.unwrap up ∈ cleaningOpsChildren true p 0 cs →
      (∃ k, up = p ++ [0 + k] ∧ true = true) ∨
      (∃ k j sub, up = p ++ ((0 + k) :: j :: sub))) :
    ∀ up, Op.unwrap up ∈ cleaningOpsNode pie p (XNode.element nm nsv attrs cs) →
      (up = p ∧ pie = true) ∨ (∃ k sub, up = p ++ (k :: sub)) := by
  intro up hop
  rw [cleaningOpsNode] at hop
  simp only [List.mem_append] at hop
  rcases hop with ((((((h | h) | h) | h) | h) | h) | h)
  · rcases ih up h with ⟨k, hup, _⟩ | ⟨k, j, sub, hup⟩
    · exact Or.inr ⟨0 + k, [], hup⟩
    · exact Or.inr ⟨0 + k, j :: sub, hup⟩
  · split at h
    · simp at h
    · simp at h
  · obtain ⟨x, _, hx⟩ := List.mem_map.mp h
    exact Op.noConfusion hx
  · obtain ⟨x, _, hx⟩ := List.mem_map.mp h
    exact Op.noConfusion hx
  · obtain ⟨x, _, hx⟩ := List.mem_map.mp h
    exact Op.noConfusion hx
  · split at h
    · obtain ⟨r, c, o, hop2, _⟩ := mem_inlineGradientOps h
      exact Op.noConfusion hop2
    · simp at h
  · split at h
    · rename_i hc
      simp only [List.mem_singleton] at h
      cases h
      exact Or.inl ⟨rfl, hc.2⟩
    · simp at h

theorem unwrapShape_case_nonelem (t : XNode) (pie : Bool) (p : Path)
    (hne : ∀ (nm : String) (nsv : Option String) (attrs : List (String × String))
      (cs : List XNode), t = XNode.element nm nsv attrs cs → False) :
    ∀ up, Op.unwrap up ∈ cleaningOpsNode pie p t →
      (up = p ∧ pie = true) ∨ (∃ k sub, up = p ++ (k :: sub)) := by
  intro up hop
  cases t with
  | element nm nsv attrs cs => exact absurd rfl (hne nm nsv attrs cs)
  | text s => simp [cleaningOpsNode] at hop
  | comment s => simp [cleaningOpsNode] at hop
  | instruction a b => simp [cleaningOpsNode] at hop

theorem unwrapShape_case_nil (pie : Bool) (path : Path) (i : Nat) :
    ∀ up, Op.unwrap up ∈ cleaningOpsChildren pie path i [] →
      (∃ k, up = path ++ [i + k] ∧ pie = true) ∨
      (∃ k j sub, up = path ++ ((i + k) :: j :: sub)) := by
  intro up hop
  rw [cleaningOpsChildren] at hop
  simp at hop

theorem unwrapShape_case_cons (pie : Bool) (path : Path) (i : Nat) (child : XNode)
    (rest : List XNode)
    (ih1 : ∀ up, Op.unwrap up ∈ cleaningOpsNode pie (path ++ [i]) child →
      (up = path ++ [i] ∧ pie = true) ∨ (∃ k sub, up = (path ++ [i]) ++ (k :: sub)))
    (ih2 : ∀ up, Op.unwrap up ∈ cleaningOpsChildren pie path (i + 1) rest →
      (∃ k, up = path ++ [i + 1 + k] ∧ pie = true) ∨
      (∃ k j sub, up = path ++ ((i + 1 + k) :: j :: sub))) :
    ∀ up, Op.unwrap up ∈ cleaningOpsChildren pie path i (child :: rest) →
      (∃ k, up = path ++ [i + k] ∧ pie = true) ∨
      (∃ k j sub, up = path ++ ((i + k) :: j :: sub)) := by
  intro up hop
  rw [cleaningOpsChildren] at hop
  simp only [List.mem_append] at hop
  rcases hop with ((h | h) | h)
  · split at h
    · simp at h
    · simp at h
  · rcases ih1 up h with ⟨hup, hpie⟩ | ⟨k, sub, hup⟩
    · exact Or.inl ⟨0, by rw [hup, Nat.add_zero], hpie⟩
    · refine Or.inr ⟨0, k, sub, ?_⟩
      rw [hup, Nat.add_zero]
      simp
  · rcases ih2 up h with ⟨k, hup, hpie⟩ | ⟨k, j, sub, hup⟩
    · refine Or.inl ⟨k + 1, ?_, hpie⟩
      rw [hup]
      have : i + 1 + k = i + (k + 1) := by omega
      rw [this]
    · refine Or.inr ⟨k + 1, j, sub, ?_⟩
      rw [hup]
      have : i + 1 + k = i + (k + 1) := by omega
      rw [this]

theorem cleaningOpsChildren_unwrap (pie : Bool) (path : Path) (i : Nat) (ns : List XNode) :
    ∀ up, Op.unwrap up ∈ cleaningOpsChildren pie path i ns →
      (∃ k, up = path ++ [i + k] ∧ pie = true) ∨
      (∃ k j sub, up = path ++ ((i + k) :: j :: sub)) :=
  cleaningOpsChildren.induct
    (fun pie p child => ∀ up, Op.unwrap up ∈ cleaningOpsNode pie p child →
      (up = p ∧ pie = true) ∨ (∃ k sub, up = p ++ (k :: sub)))
    (fun pie path i ns => ∀ up, Op.unwrap up ∈ cleaningOpsChildren pie path i ns →
      (∃ k, up = path ++ [i + k] ∧ pie = true) ∨
      (∃ k j sub, up = path ++ ((i + k) :: j :: sub)))
    unwrapShape_case_elem
    unwrapShape_case_nonelem
    unwrapShape_case_nil
    unwrapShape_case_cons
    pie path i ns

/-! ### C5: deep deletion completeness -/

theorem mem_cleaningOpsNode_of_children {op : Op} {pie : Bool} {p : Path} {nm : String}
    {nsv : Option String} {attrs : List (String × String)} {cs : List XNode}
    (h : op ∈ cleaningOpsChildren true p 0 cs) :
    op ∈ cleaningOpsNode pie p (XNode.element nm nsv attrs cs) := by
  rw [cleaningOpsNode]
  exact List.mem_append_left _ (List.mem_append_left _ (List.mem_append_left _
    (List.mem_append_left _ (List.mem_append_left _ (List.mem_append_left _ h)))))

theorem mem_cleaningOpsChildren_of_node {op : Op} {pie : Bool} {path : Path} {i : Nat}
    {child : XNode} {rest : List XNode}
    (h : op ∈ cleaningOpsNode pie (path ++ [i]) child) :
    op ∈ cleaningOpsChildren pie path i (child :: rest) := by
  rw [cleaningOpsChildren]
  exact List.mem_append_left _ (List.mem_append_right _ h)

theorem mem_cleaningOpsChildren_of_rest {op : Op} {pie : Bool} {path : Path} {i : Nat}
    {child : XNode} {rest : List XNode}
    (h : op ∈ cleaningOpsChildren pie path (i + 1) rest) :
    op ∈ cleaningOpsChildren pie path i (child :: rest) := by
  rw [cleaningOpsChildren]
  exact List.mem_append_right _ h

theorem deepDel_case_elem (pie : Bool) (p : Path) (nm : String) (nsv : Option String)
    (attrs : List (String × String)) (cs : List XNode)
    (ih : ∀ (j : Nat) (sub : Path) (gnm : String) (gns : Option String)
      (gattrs : List (String × String)) (gcs : List XNode) (k : Nat),
      nodeAtKids (j :: sub) cs = some (XNode.element gnm gns gattrs gcs) →
      k < gcs.length →
      Op.deleteAt (p ++ ((0 + j) :: (sub ++ [k]))) ∈ cleaningOpsChildren true p 0 cs) :
    ∀ (sub : Path) (gnm : String) (gns : Option String)
      (gattrs : List (String × String)) (gcs : List XNode) (k : Nat),
      nodeFrom (XNode.element nm nsv attrs cs) sub = some (XNode.element gnm gns gattrs gcs) →
      k < gcs.length →
      Op.deleteAt (p ++ (sub ++ [k])) ∈
        cleaningOpsNode pie p (XNode.element nm nsv attrs cs) := by
  intro sub gnm gns gattrs gcs k hfrom hk
  apply mem_cleaningOpsNode_of_children
  cases sub with
  | nil =>
    have he : XNode.element nm nsv attrs cs = XNode.element gnm gns gattrs gcs := by
      simpa [nodeFrom] using hfrom
    cases he
    have hget := List.get?_eq_get (show k < cs.length from hk)
    have := deleteOp_mem_children cs true p 0 k _ hget (Or.inl rfl)
    simpa using this
  | cons j ss =>
    have hfrom2 : nodeAtKids (j :: ss) cs = some (XNode.element gnm gns gattrs gcs) := by
      simpa [nodeFrom, XNode.childNodes] using hfrom
    have := ih j ss gnm gns gattrs gcs k hfrom2 hk
    simpa using this

theorem deepDel_case_nonelem (t : XNode) (pie : Bool) (p : Path)
    (hne : ∀ (nm : String) (nsv : Option String) (attrs : List (String × String))
      (cs : List XNode), t = XNode.element nm nsv attrs cs → False) :
    ∀ (sub : Path) (gnm : String) (gns : Option String)
      (gattrs : List (String × String)) (gcs : List XNode) (k : Nat),
      nodeFrom t sub = some (XNode.element gnm gns gattrs gcs) →
      k < gcs.length →
      Op.deleteAt (p ++ (sub ++ [k])) ∈ cleaningOpsNode pie p t := by
  intro sub gnm gns gattrs gcs k hfrom _
  cases sub with
  | nil =>
    have : t = XNode.element gnm gns gattrs gcs := by simpa [nodeFrom] using hfrom
    exact absurd this (fun hc => hne gnm gns gattrs gcs hc)
  | cons j ss =>
    cases t with
    | element nm2 nsv2 a2 c2 => exact absurd rfl (hne nm2 nsv2 a2 c2)
    | text s =>
      have hf2 : nodeAtKids (j :: ss) ([] : List XNode) =
          some (XNode.element gnm gns gattrs gcs) := hfrom
      rw [nodeAtKids_nil] at hf2
      exact absurd hf2 (by simp)
    | comment s =>
      have hf2 : nodeAtKids (j :: ss) ([] : List XNode) =
          some (XNode.element gnm gns gattrs gcs) := hfrom
      rw [nodeAtKids_nil] at hf2
      exact absurd hf2 (by simp)
    | instruction x y =>
      have hf2 : nodeAtKids (j :: ss) ([] : List XNode) =
          some (XNode.element gnm gns gattrs gcs) := hfrom
      rw [nodeAtKids_nil] at hf2
      exact absurd hf2 (by simp)

theorem deepDel_case_nil (pie : Bool) (path : Path) (i : Nat) :
    ∀ (j : Nat) (sub : Path) (gnm : String) (gns : Option String)
      (gattrs : List (String × String)) (gcs : List XNode) (k : Nat),
      nodeAtKids (j :: sub) ([] : List XNode) = some (XNode.element gnm gns gattrs gcs) →
      k < gcs.length →
      Op.deleteAt (path ++ ((i + j) :: (sub ++ [k]))) ∈
        cleaningOpsChildren pie path i [] := by
  intro j sub gnm gns gattrs gcs k hfrom _
  rw [nodeAtKids_nil] at hfrom
  exact absurd hfrom (by simp)

theorem deepDel_case_cons (pie : Bool) (path : Path) (i : Nat) (child : XNode)
    (rest : List XNode)
    (ih1 : ∀ (sub : Path) (gnm : String) (gns : Option String)
      (gattrs : List (String × String)) (gcs : List XNode) (k : Nat),
      nodeFrom child sub = some (XNode.element gnm gns gattrs gcs) →
      k < gcs.length →
      Op.deleteAt ((path ++ [i]) ++ (sub ++ [k])) ∈ cleaningOpsNode pie (path ++ [i]) child)
    (ih2 : ∀ (j : Nat) (sub : Path) (gnm : String) (gns : Option String)
      (gattrs : List (String × String)) (gcs : List XNode) (k : Nat),
      nodeAtKids (j :: sub) rest = some (XNode.element gnm gns gattrs gcs) →
      k < gcs.length →
      Op.deleteAt (path ++ ((i + 1 + j) :: (sub ++ [k]))) ∈
        cleaningOpsChildren pie path (i + 1) rest) :
    ∀ (j : Nat) (sub : Path) (gnm : String) (gns : Option String)
      (gattrs : List (String × String)) (gcs : List XNode) (k : Nat),
      nodeAtKids (j :: sub) (child :: rest) = some (XNode.element gnm gns gattrs gcs) →
      k < gcs.length →
      Op.deleteAt (path ++ ((i + j) :: (sub ++ [k]))) ∈
        cleaningOpsChildren pie path i (child :: rest) := by
  intro j sub gnm gns gattrs gcs k hfrom hk
  cases j with
  | zero =>
    have hfrom2 : nodeFrom child sub = some (XNode.element gnm gns gattrs gcs) := by
      cases sub with
      | nil => simpa [nodeAtKids, nodeFrom] using hfrom
      | cons s ss =>
        cases child with
        | element nm2 nsv2 a2 c2 =>
          rw [nodeAtKids] at hfrom
          simp only [List.get?] at hfrom
          simpa [nodeFrom, XNode.childNodes] using hfrom
        | text s2 =>
          rw [nodeAtKids] at hfrom
          simp at hfrom
        | comment s2 =>
          rw [nodeAtKids] at hfrom
          simp at hfrom
        | instruction x y =>
          rw [nodeAtKids] at hfrom
          simp at hfrom
    have := ih1 sub gnm gns gattrs gcs k hfrom2 hk
    apply mem_cleaningOpsChildren_of_node
    simpa using this
  | succ j2 =>
    rw [nodeAtKids_cons_succ] at hfrom
    have := ih2 j2 sub gnm gns gattrs gcs k hfrom hk
    have harith : i + 1 + j2 = i + (j2 + 1) := by omega
    rw [harith] at this
    exact mem_cleaningOpsChildren_of_rest this

theorem cleaningOpsChildren_deepDel (pie : Bool) (path : Path) (i : Nat) (ns : List XNode) :
    ∀ (j : Nat) (sub : Path) (gnm : String) (gns : Option String)
      (gattrs : List (String × String)) (gcs : List XNode) (k : Nat),
      nodeAtKids (j :: sub) ns = some (XNode.element gnm gns gattrs gcs) →
      k < gcs.length →
      Op.deleteAt (path ++ ((i + j) :: (sub ++ [k]))) ∈ cleaningOpsChildren pie path i ns :=
  cleaningOpsChildren.induct
    (fun pie p child => ∀ (sub : Path) (gnm : String) (gns : Option String)
      (gattrs : List (String × String)) (gcs : List XNode) (k : Nat),
      nodeFrom child sub = some (XNode.element gnm gns gattrs gcs) →
      k < gcs.length →
      Op.deleteAt (p ++ (sub ++ [k])) ∈ cleaningOpsNode pie p child)
    (fun pie path i ns => ∀ (j : Nat) (sub : Path) (gnm : String) (gns : Option String)
      (gattrs : List (String × String)) (gcs : List XNode) (k : Nat),
      nodeAtKids (j :: sub) ns = some (XNode.element gnm gns gattrs gcs) →
      k < gcs.length →
      Op.deleteAt (path ++ ((i + j) :: (sub ++ [k]))) ∈ cleaningOpsChildren pie path i ns)
    deepDel_case_elem
    deepDel_case_nonelem
    deepDel_case_nil
    deepDel_case_cons
    pie path i ns

theorem elemSigKids_edit_delete_nonelem (ns : List XNode) (i : Nat) (child : XNode)
    (hget : ns.get? i = some child) (hne : child.isElement = false) :
    elemSigKids (editChildren [i] (fun _ => []) ns) = elemSigKids ns := by
  rw [editChildren, hget]
  dsimp only
  rw [List.append_nil]
  exact elemSigKids_remove_nonelem ns i child hget hne

/-- C5.  The generator never yields a deletion op for an Element child
of the Document (in particular not for the root element), while it
yields one for every non-Element child of the Document and for every
child of every Element; and — for documents whose element children are
`svg` elements, as `parse` guarantees — every generated op preserves
the root element's name and namespace. -/
theorem c5_root_invariant (d : XDoc) :
    (∀ (i : Nat) (child : XNode), d.children.get? i = some child →
      child.isElement = true → ¬ Op.deleteAt [i] ∈ cleaningOps d) ∧
    (∀ (i : Nat) (child : XNode), d.children.get? i = some child →
      child.isElement = false → Op.deleteAt [i] ∈ cleaningOps d) ∧
    (∀ (p : Path) (gnm : String) (gns : Option String)
      (gattrs : List (String × String)) (gcs : List XNode) (k : Nat),
      nodeAt d p = some (XNode.element gnm gns gattrs gcs) → k < gcs.length →
      Op.deleteAt (p ++ [k]) ∈ cleaningOps d) ∧
    (∀ op ∈ cleaningOps d,
      (∀ n ∈ d.children, n.isElement = true →
        ∃ nsv attrs cs, n = XNode.element "svg" nsv attrs cs) →
      rootSig (applyOp op d) = rootSig d) := by
  refine ⟨?_, ?_, ?_, ?_⟩
  · intro i child hget helem hop
    rcases cleaningOpsChildren_del false [] 0 d.children [i] hop with
      ⟨k, child2, hget2, hdp, hcond⟩ | ⟨k, j, sub, hdp⟩
    · have hik : i = k := by simpa using hdp
      subst hik
      have : child2 = child := by
        rw [hget] at hget2
        exact (Option.some_inj.mp hget2).symm
      subst this
      rcases hcond with h | h
      · simp at h
      · rw [helem] at h
        simp at h
    · simp at hdp
  · intro i child hget hne
    have := deleteOp_mem_children d.children false [] 0 i child hget (Or.inr hne)
    simpa [cleaningOps] using this
  · intro p gnm gns gattrs gcs k hnode hk
    cases p with
    | nil => simp [nodeAt, nodeAtKids] at hnode
    | cons j sub =>
      have := cleaningOpsChildren_deepDel false [] 0 d.children j sub gnm gns gattrs gcs k
        hnode hk
      simpa [cleaningOps] using this
  · intro op hop hwf
    cases op with
    | deleteAt dp =>
      rcases cleaningOpsChildren_del false [] 0 d.children dp hop with
        ⟨k, child, hget, hdp, hcond⟩ | ⟨k, j, sub, hdp⟩
      · have hne : child.isElement = false := by
          rcases hcond with h | h
          · simp at h
          · exact h
        have hdp2 : dp = [k] := by simpa using hdp
        subst hdp2
        show rootSig ⟨editChildren [k] (fun _ => []) d.children⟩ = rootSig d
        unfold rootSig
        exact elemSigKids_edit_delete_nonelem d.children k child hget hne
      · have hdp2 : dp = (0 + k) :: j :: sub := by simpa using hdp
        subst hdp2
        show rootSig ⟨editChildren ((0 + k) :: j :: sub) (fun _ => []) d.children⟩ = rootSig d
        unfold rootSig
        exact elemSigKids_edit_deep (0 + k) j sub _ d.children
    | rewriteHref p =>
      show rootSig ⟨editChildren p (fun n => [mapAttrsNode rewriteHrefAttrs n]) d.children⟩ =
        rootSig d
      unfold rootSig
      exact elemSigKids_edit_mapAttrs p _ d.children
    | removeAttr p nm =>
      show rootSig ⟨editChildren p (fun n => [mapAttrsNode _ n]) d.children⟩ = rootSig d
      unfold rootSig
      exact elemSigKids_edit_mapAttrs p _ d.children
    | removeClass p c =>
      show rootSig ⟨editChildren p (fun n => [mapAttrsNode _ n]) d.children⟩ = rootSig d
      unfold rootSig
      exact elemSigKids_edit_mapAttrs p _ d.children
    | removeStyle p k =>
      show rootSig ⟨editChildren p (fun n => [mapAttrsNode _ n]) d.children⟩ = rootSig d
      unfold rootSig
      exact elemSigKids_edit_mapAttrs p _ d.children
    | unwrap up =>
      rcases cleaningOpsChildren_unwrap false [] 0 d.children up hop with
        ⟨k, _, hpie⟩ | ⟨k, j, sub, hup⟩
      · simp at hpie
      · have hup2 : up = (0 + k) :: j :: sub := by simpa using hup
        subst hup2
        show rootSig ⟨editChildren ((0 + k) :: j :: sub) XNode.childNodes d.children⟩ =
          rootSig d
        unfold rootSig
        exact elemSigKids_edit_deep (0 + k) j sub _ d.children
    | inlineGrad q r c o =>
      obtain ⟨k, child, sub, hget, hq, hspec⟩ :=
        cleaningOpsChildren_grad false [] 0 d.children q r c o hop
      obtain ⟨gnm, gns, gattrs, gcs, hfrom, hgrad, _⟩ := hspec
      cases sub with
      | nil =>
        exfalso
        have hchild : child = XNode.element gnm gns gattrs gcs := by
          simpa [nodeFrom] using hfrom
        subst hchild
        obtain ⟨nsv2, attrs2, cs2, heq⟩ :=
          hwf _ (List.get?_mem hget) (by rfl)
        have hname : gnm = "svg" := by
          cases heq
          rfl
        rcases hgrad with h | h <;> rw [hname] at h <;> simp at h
      | cons s ss =>
        have hq2 : q = (0 + k) :: s :: ss := by simpa using hq
        subst hq2
        show rootSig ⟨editChildren ((0 + k) :: s :: ss) (fun _ => [])
          (rewriteGradList "stroke" r c o (rewriteGradList "fill" r c o d.children))⟩ =
          rootSig d
        unfold rootSig
        rw [elemSigKids_edit_deep, elemSigKids_rewriteGradList, elemSigKids_rewriteGradList]

theorem c5_root_invariant_witness :
    ¬ Op.deleteAt [0] ∈ cleaningOps fxDocAQ ∧
    Op.deleteAt [0, 0] ∈ cleaningOps fxDocAQ ∧
    rootSig (applyOp (Op.removeAttr [0, 0] "q") fxDocAQ) = rootSig fxDocAQ := by
  have h := c5_root_invariant fxDocAQ
  refine ⟨h.1 0 (XNode.element "svg" (some fxNs) [("xmlns", fxNs)]
      [XNode.element "a" (some fxNs) [("q", "1")] []]) rfl rfl, ?_, ?_⟩
  · have := h.2.2.1 [0] "svg" (some fxNs) [("xmlns", fxNs)]
      [XNode.element "a" (some fxNs) [("q", "1")] []] 0 rfl (by decide)
    simpa using this
  · exact h.2.2.2 (Op.removeAttr [0, 0] "q") (by decide)
      (by
        intro n hn he
        have hroot : n = XNode.element "svg" (some fxNs) [("xmlns", fxNs)]
            [XNode.element "a" (some fxNs) [("q", "1")] []] := by
          simpa [fxDocAQ] using hn
        exact ⟨some fxNs, [("xmlns", fxNs)],
          [XNode.element "a" (some fxNs) [("q", "1")] []], hroot⟩)

/-! ### C1: attribute-order restoration, amended characterisation -/

theorem lastIdxAux_shift (nm : String) : ∀ (l : List PhysAttr) (k : Nat),
    lastIdxAux nm l k = (lastIdxAux nm l 0).map (· + k) := by
  intro l
  induction l with
  | nil => intro k; rfl
  | cons a t ih =>
    intro k
    rw [lastIdxAux, lastIdxAux, ih (k + 1), ih 1]
    cases h0 : lastIdxAux nm t 0 with
    | some j => simp; omega
    | none => by_cases ha : a.name = nm <;> simp [ha]

theorem lastIdxOf_cons (nm : String) (a : PhysAttr) (t : List PhysAttr) :
    lastIdxOf nm (a :: t) =
      match lastIdxOf nm t with
      | some j => some (j + 1)
      | none => if a.name = nm then some 0 else none := by
  show lastIdxAux nm (a :: t) 0 = _
  rw [lastIdxAux, lastIdxAux_shift nm t 1]
  cases h : lastIdxAux nm t 0 <;> simp [lastIdxOf, h]

theorem lastIdxOf_eq_none (nm : String) (l : List PhysAttr)
    (h : nm ∉ l.map (fun a => a.name)) : lastIdxOf nm l = none := by
  induction l with
  | nil => rfl
  | cons a t ih =>
    rw [lastIdxOf_cons, ih (fun hm => h (List.mem_cons_of_mem _ hm))]
    simp only [List.map_cons, List.mem_cons] at h
    rw [if_neg (fun he => h (Or.inl he.symm))]

theorem lastIdxOf_isSome (nm : String) (l : List PhysAttr)
    (h : nm ∈ l.map (fun a => a.name)) :
    ∃ j, lastIdxOf nm l = some j ∧ j < l.length := by
  induction l with
  | nil => simp at h
  | cons a t ih =>
    rw [lastIdxOf_cons]
    simp only [List.map_cons, List.mem_cons] at h
    by_cases hmt : nm ∈ t.map (fun a => a.name)
    · obtain ⟨j, hj, hlt⟩ := ih hmt
      rw [hj]
      exact ⟨j + 1, rfl, by simpa using Nat.succ_lt_succ hlt⟩
    · rw [lastIdxOf_eq_none nm t hmt]
      rcases h with h | h
      · rw [if_pos h.symm]; exact ⟨0, rfl, Nat.succ_pos _⟩
      · exact absurd h hmt

theorem lastIdxOf_name_at (nm : String) (l : List PhysAttr) (j : Nat)
    (h : lastIdxOf nm l = some j) :
    ∃ hj : j < l.length, (l.get ⟨j, hj⟩).name = nm := by
  induction l generalizing j with
  | nil => cases h
  | cons a t ih =>
    rw [lastIdxOf_cons] at h
    cases ht : lastIdxOf nm t with
    | some j' =>
      rw [ht] at h
      cases h
      obtain ⟨hj, hnm⟩ := ih j' ht
      exact ⟨Nat.succ_lt_succ hj, hnm⟩
    | none =>
      rw [ht] at h
      by_cases ha : a.name = nm
      · rw [if_pos ha] at h
        cases h
        exact ⟨Nat.succ_pos _, ha⟩
      · rw [if_neg ha] at h
        cases h

theorem lastIdxOf_get_of_nodup (l : List PhysAttr)
    (hnd : (l.map (fun a => a.name)).Nodup) (i : Nat) (hi : i < l.length) :
    lastIdxOf ((l.get ⟨i, hi⟩).name) l = some i := by
  induction l generalizing i with
  | nil => simp at hi
  | cons a t ih =>
    rw [List.map_cons, List.nodup_cons] at hnd
    cases i with
    | zero =>
      rw [lastIdxOf_cons, lastIdxOf_eq_none _ _ (by simpa using hnd.1)]
      simp
    | succ i =>
      have hi' : i < t.length := Nat.lt_of_succ_lt_succ hi
      have := ih hnd.2 i hi'
      rw [show (((a :: t).get ⟨i + 1, hi⟩).name) = ((t.get ⟨i, hi'⟩).name) from rfl,
        lastIdxOf_cons, this]

theorem key_newonly (new orig : List PhysAttr)
    (hn : (new.map (fun a => a.name)).Nodup) (i : Nat) (hi : i < new.length)
    (hno : (new.get ⟨i, hi⟩).name ∉ orig.map (fun a => a.name)) :
    attrOrderKey new orig (new.get ⟨i, hi⟩).name = i := by
  unfold attrOrderKey
  rw [lastIdxOf_eq_none _ _ hno]
  dsimp only
  rw [lastIdxOf_get_of_nodup new hn i hi]
  rfl

theorem key_orig (new orig : List PhysAttr) (nm : String)
    (h : nm ∈ orig.map (fun a => a.name)) :
    ∃ j, lastIdxOf nm orig = some j ∧ j < orig.length ∧
      attrOrderKey new orig nm = new.length + j := by
  obtain ⟨j, hj, hlt⟩ := lastIdxOf_isSome nm orig h
  exact ⟨j, hj, hlt, by simp [attrOrderKey, hj]⟩

theorem key_inj (new orig : List PhysAttr)
    (hn : (new.map (fun a => a.name)).Nodup)
    (a b : PhysAttr) (ha : a ∈ new) (hb : b ∈ new) (hne : a.name ≠ b.name) :
    attrOrderKey new orig a.name ≠ attrOrderKey new orig b.name := by
  by_cases hao : a.name ∈ orig.map (fun x => x.name) <;>
    by_cases hbo : b.name ∈ orig.map (fun x => x.name)
  · obtain ⟨ja, hja, hlta, hka⟩ := key_orig new orig a.name hao
    obtain ⟨jb, hjb, hltb, hkb⟩ := key_orig new orig b.name hbo
    rw [hka, hkb]
    intro he
    have hjj : ja = jb := by omega
    subst hjj
    obtain ⟨hj1, hn1⟩ := lastIdxOf_name_at _ _ _ hja
    obtain ⟨hj2, hn2⟩ := lastIdxOf_name_at _ _ _ hjb
    exact hne (hn1.symm.trans hn2)
  · obtain ⟨ja, hja, hlta, hka⟩ := key_orig new orig a.name hao
    obtain ⟨⟨ib, hib⟩, hgb⟩ := List.mem_iff_get.mp hb
    have hkb : attrOrderKey new orig b.name = ib := by
      have := key_newonly new orig hn ib hib (by rw [hgb]; exact hbo)
      rwa [hgb] at this
    rw [hka, hkb]
    omega
  · obtain ⟨jb, hjb, hltb, hkb⟩ := key_orig new orig b.name hbo
    obtain ⟨⟨ia, hia⟩, hga⟩ := List.mem_iff_get.mp ha
    have hka : attrOrderKey new orig a.name = ia := by
      have := key_newonly new orig hn ia hia (by rw [hga]; exact hao)
      rwa [hga] at this
    rw [hka, hkb]
    omega
  · obtain ⟨⟨ia, hia⟩, hga⟩ := List.mem_iff_get.mp ha
    obtain ⟨⟨ib, hib⟩, hgb⟩ := List.mem_iff_get.mp hb
    have hka : attrOrderKey new orig a.name = ia := by
      have := key_newonly new orig hn ia hia (by rw [hga]; exact hao)
      rwa [hga] at this
    have hkb : attrOrderKey new orig b.name = ib := by
      have := key_newonly new orig hn ib hib (by rw [hgb]; exact hbo)
      rwa [hgb] at this
    rw [hka, hkb]
    intro he
    apply hne
    have hab : a = b := by
      rw [← hga, ← hgb]
      congr 1
      exact Fin.ext he
    rw [hab]

/-- C1 (amended): for a root tag whose scanned attribute names are
distinct, `fixAttrOrder`'s sort splits the attributes into the new-only
ones `A`, kept in their current relative order, followed by the
originally-present ones `B`, ordered by their last position in the
original input's attribute list.  The original-named attributes come
AFTER the new ones, not before as the spec claims. -/
theorem c1_amended (new orig : List PhysAttr)
    (hn : (new.map (fun a => a.name)).Nodup) :
    ∃ A B, reorderAttrs new orig = A ++ B ∧
      A = new.filter (fun a => a.name ∉ orig.map (fun x => x.name)) ∧
      B.Perm (new.filter (fun a => a.name ∈ orig.map (fun x => x.name))) ∧
      B.Pairwise (fun a b => ∀ ia ib, lastIdxOf a.name orig = some ia →
        lastIdxOf b.name orig = some ib → ia < ib) := by
  classical
  set rle : PhysAttr → PhysAttr → Prop :=
    fun a b => attrOrderKey new orig a.name ≤ attrOrderKey new orig b.name with hrle
  set rlt : PhysAttr → PhysAttr → Prop :=
    fun a b => attrOrderKey new orig a.name < attrOrderKey new orig b.name with hrlt
  haveI htot : IsTotal PhysAttr rle := ⟨fun a b => Nat.le_total _ _⟩
  haveI htra : IsTrans PhysAttr rle := ⟨fun a b c h1 h2 => Nat.le_trans h1 h2⟩
  haveI hanti : IsAntisymm PhysAttr rlt :=
    ⟨fun a b h1 h2 => absurd (Nat.lt_trans h1 h2) (Nat.lt_irrefl _)⟩
  set A : List PhysAttr :=
    new.filter (fun a => a.name ∉ orig.map (fun x => x.name)) with hA
  set C : List PhysAttr :=
    new.filter (fun a => a.name ∈ orig.map (fun x => x.name)) with hC
  set B : List PhysAttr := List.insertionSort rle C with hB
  -- permutations
  have permB : B.Perm C := List.perm_insertionSort rle C
  have permAC : (A ++ C).Perm new := by
    have h1 := List.filter_append_perm
      (fun a => decide (a.name ∉ orig.map (fun x => x.name))) new
    have h2 : new.filter (fun x =>
        !decide (x.name ∉ orig.map (fun y => y.name))) = C := by
      rw [hC]
      apply List.filter_congr
      intro x _
      rw [decide_not, Bool.not_not]
    rw [h2] at h1
    exact h1
  have permAB : (A ++ B).Perm new := (permB.append_left A).trans permAC
  have permR : (reorderAttrs new orig).Perm new := List.perm_insertionSort _ new
  -- membership transfer
  have memA : ∀ a ∈ A, a ∈ new ∧ a.name ∉ orig.map (fun x => x.name) := by
    intro a ha
    rw [hA, List.mem_filter] at ha
    exact ⟨ha.1, by simpa using ha.2⟩
  have memC : ∀ a ∈ C, a ∈ new ∧ a.name ∈ orig.map (fun x => x.name) := by
    intro a ha
    rw [hC, List.mem_filter] at ha
    exact ⟨ha.1, by simpa using ha.2⟩
  have memB : ∀ a ∈ B, a ∈ new ∧ a.name ∈ orig.map (fun x => x.name) :=
    fun a ha => memC a (permB.mem_iff.mp ha)
  -- key bounds
  have keyA : ∀ a ∈ A, attrOrderKey new orig a.name < new.length := by
    intro a ha
    obtain ⟨hmem, hno⟩ := memA a ha
    obtain ⟨⟨i, hi⟩, hg⟩ := List.mem_iff_get.mp hmem
    have := key_newonly new orig hn i hi (by rw [hg]; exact hno)
    rw [hg] at this
    rw [this]
    exact hi
  have keyB : ∀ a ∈ B, new.length ≤ attrOrderKey new orig a.name := by
    intro a ha
    obtain ⟨hj, hjo, hlt, hk⟩ := key_orig new orig a.name (memB a ha).2
    rw [hk]
    exact Nat.le_add_right _ _
  -- strict sortedness of the reordered list
  have upgrade : ∀ (l : List PhysAttr), (∀ a ∈ l, a ∈ new) →
      l.Pairwise rle → (l.map (fun a => a.name)).Nodup → l.Pairwise rlt := by
    intro l hsub hle hnd
    have hnd' : (l.map (fun a => a.name)).Pairwise (fun x y => x ≠ y) := hnd
    have hne : l.Pairwise (fun a b : PhysAttr => a.name ≠ b.name) :=
      List.pairwise_map.mp hnd'
    refine (hle.and hne).imp_of_mem ?_
    intro a b ha hb hab
    exact Nat.lt_of_le_of_ne hab.1
      (key_inj new orig hn a b (hsub a ha) (hsub b hb) hab.2)
  have hndR : ((reorderAttrs new orig).map (fun a => a.name)).Nodup :=
    (permR.map (fun a => a.name)).symm.nodup hn
  have hsR : (reorderAttrs new orig).Pairwise rlt := by
    apply upgrade _ (fun a ha => permR.mem_iff.mp ha) _ hndR
    exact List.sorted_insertionSort rle new
  -- strict sortedness of A ++ B
  have hndB : (B.map (fun a => a.name)).Nodup := by
    have hsubC : (C.map (fun a => a.name)).Sublist (new.map (fun a => a.name)) :=
      (List.filter_sublist new).map _
    exact ((permB.map (fun a => a.name)).symm.nodup (hsubC.nodup hn))
  have hpwB : B.Pairwise rlt := by
    apply upgrade _ (fun a ha => (memB a ha).1) _ hndB
    exact List.sorted_insertionSort rle C
  have hpwA : A.Pairwise rlt := by
    have hnew : new.Pairwise (fun a b : PhysAttr =>
        a.name ∉ orig.map (fun x => x.name) → b.name ∉ orig.map (fun x => x.name) →
        rlt a b) := by
      rw [List.pairwise_iff_get]
      intro i j hij
      rcases i with ⟨i, hi⟩
      rcases j with ⟨j, hj⟩
      intro hino hjno
      have hki := key_newonly new orig hn i hi hino
      have hkj := key_newonly new orig hn j hj hjno
      show attrOrderKey new orig ((new.get ⟨i, hi⟩)).name <
        attrOrderKey new orig ((new.get ⟨j, hj⟩)).name
      rw [hki, hkj]
      exact hij
    have := hnew.filter (fun a => decide (a.name ∉ orig.map (fun x => x.name)))
    refine this.imp_of_mem ?_
    intro a b ha hb hab
    exact hab (memA a ha).2 (memA b hb).2
  have hsAB : (A ++ B).Pairwise rlt := by
    rw [List.pairwise_append]
    refine ⟨hpwA, hpwB, ?_⟩
    intro a ha b hb
    exact Nat.lt_of_lt_of_le (keyA a ha) (keyB b hb)
  -- main equality
  have hmain : reorderAttrs new orig = A ++ B := by
    exact List.eq_of_perm_of_sorted (permR.trans permAB.symm) hsR hsAB
  refine ⟨A, B, hmain, rfl, permB, ?_⟩
  refine hpwB.imp_of_mem ?_
  intro a b ha hb hab ia ib hia hib
  obtain ⟨ja, hja, hjao, hka⟩ := key_orig new orig a.name (memB a ha).2
  obtain ⟨jb, hjb, hjbo, hkb⟩ := key_orig new orig b.name (memB b hb).2
  rw [hja] at hia
  rw [hjb] at hib
  cases hia
  cases hib
  have hab' : attrOrderKey new orig a.name < attrOrderKey new orig b.name := hab
  rw [hka, hkb] at hab'
  omega

/-- Witness for C1 (amended) at a concrete root tag. -/
theorem c1_amended_witness :
    (([(⟨"a", " a=\"1\"", 4, 10⟩ : PhysAttr),
        ⟨"b", " b=\"2\"", 10, 16⟩].map (fun a => a.name)).Nodup) ∧
    ∃ A B, reorderAttrs
        [(⟨"a", " a=\"1\"", 4, 10⟩ : PhysAttr), ⟨"b", " b=\"2\"", 10, 16⟩]
        [(⟨"b", " b=\"9\"", 4, 10⟩ : PhysAttr)] = A ++ B ∧
      A = [(⟨"a", " a=\"1\"", 4, 10⟩ : PhysAttr),
        ⟨"b", " b=\"2\"", 10, 16⟩].filter
        (fun a => a.name ∉ [(⟨"b", " b=\"9\"", 4, 10⟩ : PhysAttr)].map (fun x => x.name)) ∧
      B.Perm ([(⟨"a", " a=\"1\"", 4, 10⟩ : PhysAttr),
        ⟨"b", " b=\"2\"", 10, 16⟩].filter
        (fun a => a.name ∈ [(⟨"b", " b=\"9\"", 4, 10⟩ : PhysAttr)].map (fun x => x.name))) ∧
      B.Pairwise (fun a b => ∀ ia ib,
        lastIdxOf a.name [(⟨"b", " b=\"9\"", 4, 10⟩ : PhysAttr)] = some ia →
        lastIdxOf b.name [(⟨"b", " b=\"9\"", 4, 10⟩ : PhysAttr)] = some ib → ia < ib) :=
  ⟨by decide, c1_amended _ _ (by decide)⟩

/-! ### Scanner contiguity and `fixAttrOrder` self-identity -/

theorem matchQuoted_append (cs consumed r : List Char)
    (h : matchQuoted cs = some (consumed, r)) : consumed ++ r = cs := by
  unfold matchQuoted at h
  dsimp only at h
  split at h
  all_goals try cases h
  split at h
  all_goals try cases h
  split at h
  all_goals try cases h
  split at h
  all_goals try cases h
  rename_i r1x r2 heq0 x1 q r4 heq1 hq x2 q2 heq2
  have e0 : List.takeWhile isWsChar cs ++ ('=' :: r2) = cs := by
    conv_rhs => rw [← List.takeWhile_append_dropWhile isWsChar cs]
    rw [heq0]
  have e2 : List.takeWhile isWsChar r2 ++ (q :: r4) = r2 := by
    conv_rhs => rw [← List.takeWhile_append_dropWhile isWsChar r2]
    rw [heq1]
  have e4 : List.takeWhile (fun c => decide ¬ c = q) r4 ++ (q2 :: r) = r4 := by
    conv_rhs => rw [← List.takeWhile_append_dropWhile (fun c => decide ¬ c = q) r4]
    rw [heq2]
  conv_rhs => rw [← e0]
  conv_rhs => rw [← e2]
  conv_rhs => rw [← e4]
  simp

theorem tryNameRev_append : ∀ (revNp rest nm consumed r : List Char),
    tryNameRev revNp rest = some (nm, consumed, r) →
    nm ++ consumed ++ r = revNp.reverse ++ rest ∧ nm ≠ [] := by
  intro revNp
  induction revNp with
  | nil => intro rest nm consumed r h; cases h
  | cons c revNp ih =>
    intro rest nm consumed r h
    rw [tryNameRev] at h
    cases hm : matchQuoted rest with
    | some pr =>
      obtain ⟨consumed', r'⟩ := pr
      rw [hm] at h
      cases h
      have he := matchQuoted_append rest _ _ hm
      refine ⟨?_, by simp⟩
      rw [List.append_assoc, he]
    | none =>
      rw [hm] at h
      obtain ⟨he, hne⟩ := ih (c :: rest) nm consumed r h
      refine ⟨?_, hne⟩
      rw [List.reverse_cons, List.append_assoc]
      simpa using he

theorem matchAttr_append (cs raw : List Char) (nm : String) (rest : List Char)
    (h : matchAttr cs = some (raw, nm, rest)) : raw ++ rest = cs ∧ raw ≠ [] := by
  unfold matchAttr at h
  dsimp only at h
  split at h
  · cases h
  · split at h
    · cases h
    · rename_i hws x nm' consumed rest' heq
      cases h
      obtain ⟨he, hne⟩ := tryNameRev_append _ _ _ _ _ heq
      rw [List.reverse_reverse, List.takeWhile_append_dropWhile] at he
      constructor
      · conv_rhs => rw [← List.takeWhile_append_dropWhile isWsChar cs]
        rw [← he]
        simp [List.append_assoc]
      · intro hab
        rw [List.append_eq_nil] at hab
        rw [hab.1] at hws
        exact hws rfl

theorem getAttrsAux_spec : ∀ (fuel : Nat) (cs : List Char) (pos : Nat),
    (∃ rest, cs = attrsRawFlat (getAttrsAux fuel cs pos) ++ rest) ∧
    ∀ a0 t, getAttrsAux fuel cs pos = a0 :: t →
      a0.start = pos ∧
      ((a0 :: t).getLastD a0).stop = pos + (attrsRawFlat (a0 :: t)).length := by
  intro fuel
  induction fuel with
  | zero =>
    intro cs pos
    exact ⟨⟨cs, rfl⟩, fun a0 t h => by cases h⟩
  | succ fuel ih =>
    intro cs pos
    cases hm : matchAttr cs with
    | none =>
      have hstep : getAttrsAux (fuel + 1) cs pos = [] := by
        rw [getAttrsAux, hm]
      rw [hstep]
      exact ⟨⟨cs, rfl⟩, fun a0 t h => by cases h⟩
    | some p =>
      obtain ⟨raw, nm, rest⟩ := p
      have hstep : getAttrsAux (fuel + 1) cs pos =
          { name := nm, raw := String.mk raw, start := pos, stop := pos + raw.length } ::
            getAttrsAux fuel rest (pos + raw.length) := by
        rw [getAttrsAux, hm]
      obtain ⟨hcs, hraw⟩ := matchAttr_append cs raw nm rest hm
      obtain ⟨⟨rest', hrest'⟩, hspec⟩ := ih rest (pos + raw.length)
      rw [hstep]
      constructor
      · refine ⟨rest', ?_⟩
        conv_lhs => rw [← hcs, hrest']
        show raw ++ (attrsRawFlat _ ++ rest') =
          (raw ++ attrsRawFlat _) ++ rest'
        rw [List.append_assoc]
      · intro a0 t h
        cases h
        refine ⟨rfl, ?_⟩
        rw [List.getLastD_cons]
        cases hA : getAttrsAux fuel rest (pos + raw.length) with
        | nil =>
          simp [attrsRawFlat]
        | cons a1 t1 =>
          obtain ⟨hst1, hstop1⟩ := hspec a1 t1 hA
          rw [show (a1 :: t1).getLastD
              { name := nm, raw := String.mk raw, start := pos, stop := pos + raw.length } =
              (a1 :: t1).getLastD a1 from by
            rw [List.getLastD_cons, List.getLastD_cons]]
          rw [hstop1]
          show pos + raw.length + _ = pos + (raw ++ attrsRawFlat (a1 :: t1)).length
          rw [List.length_append]
          omega

theorem getAttrs_splice (svg : String) (a0 : PhysAttr) (t : List PhysAttr)
    (h : getAttrs svg = a0 :: t) :
    svg.data.take a0.start ++ attrsRawFlat (a0 :: t) ++
      svg.data.drop (((a0 :: t).getLastD a0).stop) = svg.data := by
  unfold getAttrs at h
  cases hf : findMarker svg.data with
  | none => rw [hf] at h; cases h
  | some i =>
    rw [hf] at h
    dsimp only at h
    obtain ⟨⟨rest, hrest⟩, hspec⟩ :=
      getAttrsAux_spec svg.data.length (svg.data.drop (i + 4)) (i + 4)
    rw [h] at hrest
    obtain ⟨hstart, hstop⟩ := hspec a0 t h
    rw [hstart, hstop]
    have hd : svg.data.drop ((i + 4) + (attrsRawFlat (a0 :: t)).length) = rest := by
      rw [← List.drop_drop, hrest, List.drop_left]
    rw [hd, List.append_assoc, ← hrest, List.take_append_drop]

theorem key_self (new : List PhysAttr) (hn : (new.map (fun a => a.name)).Nodup)
    (i : Nat) (hi : i < new.length) :
    attrOrderKey new new (new.get ⟨i, hi⟩).name = new.length + i := by
  unfold attrOrderKey
  rw [lastIdxOf_get_of_nodup new hn i hi]

theorem reorderAttrs_self (new : List PhysAttr)
    (hn : (new.map (fun a => a.name)).Nodup) : reorderAttrs new new = new := by
  apply List.Sorted.insertionSort_eq
  rw [List.Sorted, List.pairwise_iff_get]
  intro i j hij
  rcases i with ⟨i, hi⟩
  rcases j with ⟨j, hj⟩
  show attrOrderKey new new ((new.get ⟨i, hi⟩)).name ≤
    attrOrderKey new new ((new.get ⟨j, hj⟩)).name
  rw [key_self new hn i hi, key_self new hn j hj]
  have : i < j := hij
  omega

theorem fixAttrOrder_self (svg : String)
    (hn : ((getAttrs svg).map (fun a => a.name)).Nodup) :
    fixAttrOrder svg (getAttrs svg) = svg := by
  unfold fixAttrOrder
  dsimp only
  cases hA : getAttrs svg with
  | nil => rfl
  | cons a0 t =>
    rw [hA] at hn
    dsimp only
    rw [reorderAttrs_self (a0 :: t) hn, getAttrs_splice svg a0 t hA]


/-! ### C9: runs that accept nothing return the input unchanged -/

theorem scanOps_reject_all (accept : String → String → Bool → Bool) (lossless : Bool)
    (hrej : ∀ a b st, accept a b st = false) :
    ∀ (ops : List Op) (doc : XDoc) (svgCode : String) (skip n : Nat),
      scanOps accept lossless ops doc svgCode skip n = .exhausted ∨
      ∃ k, scanOps accept lossless ops doc svgCode skip n = .rejected k := by
  intro ops
  induction ops with
  | nil => intro doc svgCode skip n; left; rfl
  | cons op rest ih =>
    intro doc svgCode skip n
    rw [scanOps]
    split
    · exact ih doc svgCode skip (n + 1)
    · dsimp only
      split
      · exact ih (applyOp op doc) svgCode (n + 1) (n + 1)
      · rw [hrej]
        right
        exact ⟨n + 1, rfl⟩

theorem unjunkIter_reject_all (rp : String → RawDoc)
    (accept : String → String → Bool → Bool) (lossless : Bool)
    (hrej : ∀ a b st, accept a b st = false) (svg : String) (d : XDoc)
    (hp : parse rp svg = .ok d) :
    ∀ (fuel skip : Nat), unjunkIter rp accept lossless fuel svg skip = some svg := by
  intro fuel
  induction fuel with
  | zero => intro skip; rfl
  | succ fuel ih =>
    intro skip
    rw [unjunkIter, hp]
    dsimp only
    rcases scanOps_reject_all accept lossless hrej (cleaningOps d) d svg skip 0 with
      h | ⟨k, h⟩
    · rw [h]
    · rw [h]
      exact ih k

theorem unjunkIter_no_accept (rp : String → RawDoc)
    (accept : String → String → Bool → Bool) (lossless : Bool)
    (svg : String) (d : XDoc) (hp : parse rp svg = .ok d)
    (hnoacc : ∀ skip newCode k,
      ¬ scanOps accept lossless (cleaningOps d) d svg skip 0 =
        .accepted newCode k) :
    ∀ (fuel skip : Nat), unjunkIter rp accept lossless fuel svg skip = some svg := by
  intro fuel
  induction fuel with
  | zero => intro skip; rfl
  | succ fuel ih =>
    intro skip
    rw [unjunkIter, hp]
    dsimp only
    cases hs : scanOps accept lossless (cleaningOps d) d svg skip 0 with
    | exhausted => rfl
    | accepted newCode k => exact absurd hs (hnoacc skip newCode k)
    | rejected k => exact ih k

/-- C9 (amended): a run in which no pass of the inner loop over the
document's candidates accepts one — in particular a re-run over a
converged document — returns its input byte-identically: the driver
keeps the committed markup unchanged through every rejected pass, and
`fixAttrOrder` splices the scanned attributes back into their own span
in their original order.  Requires the input to parse and the scanned
attribute names of its root tag to be distinct; with duplicate scanned
names the final splice can permute the input even when nothing is
accepted. -/
theorem c9_amended (rp : String → RawDoc) (accept : String → String → Bool → Bool)
    (lossless : Bool) (svg : String) (d : XDoc)
    (hp : parse rp svg = .ok d)
    (hnoacc : ∀ skip newCode k,
      ¬ scanOps accept lossless (cleaningOps d) d svg skip 0 =
        .accepted newCode k)
    (hn : ((getAttrs svg).map (fun a => a.name)).Nodup) :
    unjunk rp accept lossless svg = some svg := by
  unfold unjunk
  rw [unjunkIter_no_accept rp accept lossless svg d hp hnoacc 1000 0]
  dsimp only [Option.map]
  rw [fixAttrOrder_self svg hn]

/-- Witness for C9 (amended): a run over the two-element fixture whose
oracle rejects everything accepts no candidate in any pass and returns
the input string itself. -/
theorem c9_amended_witness :
    parse fxRawParse fxStrAQ = Except.ok fxDocAQ ∧
    (∀ skip newCode k,
      ¬ scanOps fxAcceptNone false (cleaningOps fxDocAQ) fxDocAQ fxStrAQ skip 0 =
        ScanResult.accepted newCode k) ∧
    (((getAttrs fxStrAQ).map (fun a => a.name)).Nodup) ∧
    unjunk fxRawParse fxAcceptNone false fxStrAQ = some fxStrAQ := by
  have hnoacc : ∀ skip newCode k,
      ¬ scanOps fxAcceptNone false (cleaningOps fxDocAQ) fxDocAQ fxStrAQ skip 0 =
        ScanResult.accepted newCode k := by
    intro skip newCode k h
    rcases scanOps_reject_all fxAcceptNone false (fun a b st => rfl)
        (cleaningOps fxDocAQ) fxDocAQ fxStrAQ skip 0 with h2 | ⟨k2, h2⟩ <;>
      rw [h] at h2 <;> cases h2
  exact ⟨rfl, hnoacc, by decide,
    c9_amended fxRawParse fxAcceptNone false fxStrAQ fxDocAQ rfl hnoacc (by decide)⟩

/-! ### C2: non-growth under a non-growing oracle -/

theorem charsByteLen_append (x y : List Char) :
    charsByteLen (x ++ y) = charsByteLen x + charsByteLen y := by
  unfold charsByteLen
  rw [List.map_append, List.sum_append]

theorem attrsRawFlat_byteLen (l : List PhysAttr) :
    charsByteLen (attrsRawFlat l) =
      (l.map (fun a => charsByteLen a.raw.data)).sum := by
  induction l with
  | nil => rfl
  | cons a t ih =>
    show charsByteLen (a.raw.data ++ attrsRawFlat t) = _
    rw [charsByteLen_append, ih]
    rfl

theorem attrsRawFlat_byteLen_perm (l l' : List PhysAttr) (h : l.Perm l') :
    charsByteLen (attrsRawFlat l) = charsByteLen (attrsRawFlat l') := by
  rw [attrsRawFlat_byteLen, attrsRawFlat_byteLen]
  exact List.Perm.sum_eq (h.map _)

theorem fixAttrOrder_byteLen (s : String) (orig : List PhysAttr) :
    byteLen (fixAttrOrder s orig) = byteLen s := by
  unfold fixAttrOrder
  dsimp only
  cases hA : getAttrs s with
  | nil => rfl
  | cons a0 t =>
    dsimp only
    show charsByteLen (s.data.take a0.start ++
      attrsRawFlat (reorderAttrs (a0 :: t) orig) ++
      s.data.drop (((a0 :: t).getLastD a0).stop)) = charsByteLen s.data
    conv_rhs => rw [← getAttrs_splice s a0 t hA]
    rw [charsByteLen_append, charsByteLen_append, charsByteLen_append,
      charsByteLen_append]
    unfold reorderAttrs
    rw [attrsRawFlat_byteLen_perm _ _ (List.perm_insertionSort _ (a0 :: t))]

theorem scanOps_accepted (accept : String → String → Bool → Bool) (lossless : Bool) :
    ∀ (ops : List Op) (doc : XDoc) (svgCode : String) (skip n : Nat)
      (newCode : String) (k : Nat),
      scanOps accept lossless ops doc svgCode skip n = .accepted newCode k →
      ∃ st, accept newCode svgCode st = true := by
  intro ops
  induction ops with
  | nil => intro doc svgCode skip n newCode k h; cases h
  | cons op rest ih =>
    intro doc svgCode skip n newCode k h
    rw [scanOps] at h
    split at h
    · exact ih _ _ _ _ _ _ h
    · dsimp only at h
      split at h
      · exact ih _ _ _ _ _ _ h
      · split at h
        · rename_i hacc
          cases h
          exact ⟨_, hacc⟩
        · cases h

theorem unjunkIter_byteLen (rp : String → RawDoc)
    (accept : String → String → Bool → Bool) (lossless : Bool)
    (hacc : ∀ a b st, accept a b st = true → byteLen a ≤ byteLen b) :
    ∀ (fuel : Nat) (svg : String) (skip : Nat) (out : String),
      unjunkIter rp accept lossless fuel svg skip = some out →
      byteLen out ≤ byteLen svg := by
  intro fuel
  induction fuel with
  | zero =>
    intro svg skip out h
    rw [unjunkIter] at h
    cases h
    exact Nat.le_refl _
  | succ fuel ih =>
    intro svg skip out h
    rw [unjunkIter] at h
    cases hp : parse rp svg with
    | error e => rw [hp] at h; cases h
    | ok d =>
      rw [hp] at h
      dsimp only at h
      cases hs : scanOps accept lossless (cleaningOps d) d svg skip 0 with
      | exhausted =>
        rw [hs] at h
        cases h
        exact Nat.le_refl _
      | accepted newCode newSkip =>
        rw [hs] at h
        dsimp only at h
        obtain ⟨st, hst⟩ := scanOps_accepted accept lossless _ _ _ _ _ _ _ hs
        exact Nat.le_trans (ih newCode newSkip out h) (hacc _ _ _ hst)
      | rejected newSkip =>
        rw [hs] at h
        exact ih svg newSkip out h

/-- C2 (amended): whenever the oracle accepts only candidates whose byte
length does not exceed the committed markup's, the final output is at
most as long as the input: every committed step is non-growing and the
attribute-order splice preserves the byte length exactly.  (Without this
restriction on the oracle the output can be longer than the input, as
the namespace-recovery counterexample shows.) -/
theorem c2_amended (rp : String → RawDoc) (accept : String → String → Bool → Bool)
    (lossless : Bool) (svg out : String)
    (hacc : ∀ a b st, accept a b st = true → byteLen a ≤ byteLen b)
    (hout : unjunk rp accept lossless svg = some out) :
    byteLen out ≤ byteLen svg := by
  unfold unjunk at hout
  cases hit : unjunkIter rp accept lossless 1000 svg 0 with
  | none => rw [hit] at hout; cases hout
  | some mid =>
    rw [hit] at hout
    dsimp only [Option.map] at hout
    cases hout
    rw [fixAttrOrder_byteLen]
    exact unjunkIter_byteLen rp accept lossless hacc 1000 svg 0 mid hit

/-- Witness for C2 (amended): the fixture oracle accepts only shrinking
candidates, and the run on the two-element fixture shrinks it. -/
theorem c2_amended_witness :
    (∀ a b st, fxAcceptC9 a b st = true → byteLen a ≤ byteLen b) ∧
    unjunk fxRawParse fxAcceptC9 false fxStrAQ = some fxStrA ∧
    byteLen fxStrA ≤ byteLen fxStrAQ := by
  have hacc : ∀ a b st, fxAcceptC9 a b st = true → byteLen a ≤ byteLen b := by
    intro a b st h
    unfold fxAcceptC9 at h
    rw [Bool.or_eq_true, Bool.and_eq_true, Bool.and_eq_true] at h
    rcases h with ⟨ha, hb⟩ | ⟨ha, hb⟩
    · rw [of_decide_eq_true ha, of_decide_eq_true hb]
      decide
    · rw [of_decide_eq_true ha, of_decide_eq_true hb]
      decide
  have hrun : unjunk fxRawParse fxAcceptC9 false fxStrAQ = some fxStrA := by decide
  exact ⟨hacc, hrun,
    c2_amended fxRawParse fxAcceptC9 false fxStrAQ fxStrA hacc hrun⟩


/-! ### C3: the visual-equality gate -/

theorem assertVisuallySame_iff (cs : List (Nat → ℝ)) (lossless : Bool) :
    assertVisuallySame cs lossless ↔
      ∀ c ∈ cs, c 1 ≤ 0 ∨
        (lossless = false ∧ c 2 / c 1 < (2 : ℝ) ^ (1.5 : ℝ)) := by
  induction cs with
  | nil => simp [assertVisuallySame]
  | cons c rest ih =>
    rw [assertVisuallySame, List.forall_mem_cons, ih]
    by_cases h1 : c 1 ≤ 0
    · tauto
    · tauto

theorem assertVisuallySame_strict (cs : List (Nat → ℝ)) :
    assertVisuallySame cs true ↔ ∀ x ∈ cs.map (fun c => c 1), x ≤ 0 := by
  rw [assertVisuallySame_iff]
  simp

/-- C3: a candidate is accepted iff every comparison policy either has
its 1x defect score ≤ 0, or strict mode is off and the 2x/1x score
ratio is below `2 ^ 1.5`; and in strict mode acceptance depends only on
the 1x scores, so a positive 1x score rejects without consulting the 2x
render. -/
theorem c3_validation (cs : List (Nat → ℝ)) (lossless : Bool) :
    (assertVisuallySame cs lossless ↔
      ∀ c ∈ cs, c 1 ≤ 0 ∨
        (lossless = false ∧ c 2 / c 1 < (2 : ℝ) ^ (1.5 : ℝ))) ∧
    (∀ cs' : List (Nat → ℝ), cs.map (fun c => c 1) = cs'.map (fun c => c 1) →
      (assertVisuallySame cs true ↔ assertVisuallySame cs' true)) := by
  refine ⟨assertVisuallySame_iff cs lossless, ?_⟩
  intro cs' h
  rw [assertVisuallySame_strict, assertVisuallySame_strict, h]

/-! ### C6: the parse contract and error surfacing -/

theorem unjunkIter_none (rp : String → RawDoc)
    (accept : String → String → Bool → Bool) (lossless : Bool) :
    ∀ (fuel : Nat) (svg : String) (skip : Nat),
      unjunkIter rp accept lossless fuel svg skip = none →
      ∃ c e, parse rp c = .error e := by
  intro fuel
  induction fuel with
  | zero =>
    intro svg skip h
    rw [unjunkIter] at h
    cases h
  | succ fuel ih =>
    intro svg skip h
    rw [unjunkIter] at h
    cases hp : parse rp svg with
    | error e => exact ⟨svg, e, hp⟩
    | ok d =>
      rw [hp] at h
      dsimp only at h
      cases hs : scanOps accept lossless (cleaningOps d) d svg skip 0 with
      | exhausted => rw [hs] at h; cases h
      | accepted newCode newSkip =>
        rw [hs] at h
        exact ih newCode newSkip h
      | rejected newSkip =>
        rw [hs] at h
        exact ih svg newSkip h

/-- C6: `parse` succeeds exactly on a root element named lowercase
`svg` in the SVG namespace; with an unbound (null) namespace and no
reported parser error it injects the default namespace declaration and
re-parses exactly once; on any other shape it fails with a parse error.
`unjunk` surfaces a parse error on its input as a failure, and it can
fail only through a parse error. -/
theorem c6_parse_contract (rp : String → RawDoc) (s : String) :
    ((rp s).rootNs = some svgNamespace → (rp s).rootName = "svg" →
      parse rp s = .ok (rp s).doc) ∧
    ((rp s).rootNs = some svgNamespace → ¬ (rp s).rootName = "svg" →
      parse rp s = .error
        "SVG parse error: The document element tag should be \"svg\" in lowercase") ∧
    (¬ (rp s).rootNs = some svgNamespace → hasErrText (rp s) = true →
      parse rp s = .error ("SVG parse error: " ++ ((rp s).errText.getD ""))) ∧
    (∀ ns, (rp s).rootNs = some ns → ¬ ns = svgNamespace →
      hasErrText (rp s) = false →
      parse rp s = .error
        "SVG parse error: The namespace should be \"http://www.w3.org/2000/svg\"") ∧
    ((rp s).rootNs = none → hasErrText (rp s) = false →
      parse rp s = parseAux rp 0 (serialize (setRootXmlns (rp s).doc))) ∧
    (∀ accept lossless e, parse rp s = .error e →
      unjunk rp accept lossless s = none) ∧
    (∀ accept lossless, unjunk rp accept lossless s = none →
      ∃ c e, parse rp c = .error e) := by
  refine ⟨?_, ?_, ?_, ?_, ?_, ?_, ?_⟩
  · intro h1 h2
    unfold parse parseAux
    dsimp only
    rw [if_neg (fun hc => hc h1), if_neg (fun hc => hc h2)]
  · intro h1 h2
    unfold parse parseAux
    dsimp only
    rw [if_neg (fun hc => hc h1), if_pos h2]
  · intro h1 h2
    unfold parse parseAux
    dsimp only
    rw [if_pos h1, if_pos h2]
  · intro ns h1 hne h2
    unfold parse parseAux
    dsimp only
    rw [if_pos (fun hc => hne (by rw [h1] at hc; cases hc; rfl)),
      if_neg (fun hc : hasErrText (rp s) = true => by rw [h2] at hc; cases hc),
      if_pos (fun hc => by rw [h1] at hc; cases hc)]
  · intro h1 h2
    unfold parse parseAux
    dsimp only
    rw [if_pos (fun hc : (rp s).rootNs = some svgNamespace =>
        by rw [h1] at hc; cases hc),
      if_neg (fun hc : hasErrText (rp s) = true => by rw [h2] at hc; cases hc),
      if_neg (fun hc => hc h1)]
    rfl
  · intro accept lossless e hp
    unfold unjunk
    rw [show (1000 : Nat) = 999 + 1 from rfl, unjunkIter, hp]
    rfl
  · intro accept lossless h
    unfold unjunk at h
    cases hit : unjunkIter rp accept lossless 1000 s 0 with
    | none => exact unjunkIter_none rp accept lossless 1000 s 0 hit
    | some mid => rw [hit] at h; cases h

/-- Witness for C6 at the fixture parser and document: a root `svg` in
the SVG namespace parses to the underlying document. -/
theorem c6_parse_contract_witness :
    (fxRawParse fxStrAQ).rootNs = some svgNamespace ∧
    (fxRawParse fxStrAQ).rootName = "svg" ∧
    parse fxRawParse fxStrAQ = Except.ok (fxRawParse fxStrAQ).doc :=
  ⟨rfl, rfl, (c6_parse_contract fxRawParse fxStrAQ).1 rfl rfl⟩

end SvgUnjunk
